import Mathlib

/-!
# Verification of the ashura canvas/GPU/scheduler core

Shallow embedding of the parts of the `darmie/ashura` repository that the
frozen claims are about, together with theorems settling each claim.

Conventions of the embedding:
* machine integers (`u32`, `u64`) are modelled as `Nat`; wherever the source
  clamps values (`min`, `sat_add`) before arithmetic, overflow cannot occur,
  so no explicit `% 2^w` is needed and this is noted at the definition;
* `f32` data that the control flow only copies or compares for equality is
  modelled as `ℚ`; `f32` trigonometry (`rotor`, `atanf`) is modelled over `ℝ`;
* a fatal `CHECK(...)` is modelled as returning `none` from an
  `Option`-valued function (`some` = the call returns normally);
* out-parameters passed by reference (`Vec<T> &`) become explicit
  state-passing: the function takes the old list and returns the new one.
-/

namespace Ashura

/-! ## `std/async.h` — `Semaphore` (claims C3, C4)

From `src/ashura/std/async.h` lines 294-349.  `stage` and `num_stages` are
`u64`; both `signal` and `increment` clamp with `min(_, num_stages)` and
`increment` uses `sat_add`, so all intermediate values stay `≤ num_stages`
(≤ `U64_MAX`) and `Nat` models the arithmetic exactly. -/

structure Semaphore where
  num_stages : Nat
  stage : Nat
deriving DecidableEq, Repr

/-- `Semaphore::init`: `CHECK(num_stages > 0); stage = 0`.  The caller of the
claims always supplies `num_stages > 0`, so the CHECK is kept as a hypothesis
of the theorems rather than an `Option`. -/
def Semaphore.make (num_stages : Nat) : Semaphore :=
  { num_stages := num_stages, stage := 0 }

/-- `Semaphore::get_stage`: atomic load of `stage`. -/
def Semaphore.get_stage (s : Semaphore) : Nat := s.stage

/-- `Semaphore::is_completed`: `stage == num_stages`. -/
def Semaphore.is_completed (s : Semaphore) : Bool := s.stage == s.num_stages

/-- `Semaphore::signal(next)`:
`next = min(next, num_stages)`; CAS loop with expected value starting at `0`:
on failure the observed `current` must satisfy `CHECK(current <= next)` and the
CAS is retried.  Sequentially this sets `stage := next` when `stage ≤ next`
and is fatal (`none`) when `stage > next`.  (When `stage = 0` the first CAS
succeeds directly; `0 ≤ next` always, so the branch condition is the same.) -/
def Semaphore.signal (s : Semaphore) (next : Nat) : Option Semaphore :=
  let next := min next s.num_stages
  if s.stage ≤ next then some { s with stage := next } else none

/-- `Semaphore::increment(inc)`:
`inc = min(inc, num_stages)`; CAS loop whose desired value is
`min(sat_add(current, inc), num_stages)`.  Since `current ≤ U64_MAX` and the
result is clamped to `num_stages`, saturation and modular wrap agree with
plain `Nat` addition followed by `min`.  Never fatal. -/
def Semaphore.increment (s : Semaphore) (inc : Nat) : Option Semaphore :=
  let inc := min inc s.num_stages
  some { s with stage := min (s.stage + inc) s.num_stages }

/-- One call of the semaphore mutator interface. -/
inductive SemOp where
  | signal (next : Nat)
  | increment (inc : Nat)
deriving DecidableEq, Repr

/-- Run a sequence of `signal`/`increment` calls; `none` as soon as one of
them hits a fatal `CHECK`. -/
def runSemOps (s : Semaphore) : List SemOp → Option Semaphore
  | [] => some s
  | SemOp.signal n :: rest => match s.signal n with
    | some s1 => runSemOps s1 rest
    | none => none
  | SemOp.increment n :: rest => match s.increment n with
    | some s1 => runSemOps s1 rest
    | none => none

theorem signal_cases (s s1 : Semaphore) (n : Nat)
    (h : s.signal n = some s1) :
    s1.num_stages = s.num_stages ∧ s1.stage = min n s.num_stages ∧
      s.stage ≤ s1.stage := by
  unfold Semaphore.signal at h
  by_cases hc : s.stage ≤ min n s.num_stages
  · simp only [hc, if_pos] at h
    cases h
    exact ⟨rfl, rfl, hc⟩
  · simp [hc] at h

theorem increment_cases (s s1 : Semaphore) (n : Nat)
    (hs : s.stage ≤ s.num_stages)
    (h : s.increment n = some s1) :
    s1.num_stages = s.num_stages ∧
      s1.stage = min (s.stage + min n s.num_stages) s.num_stages ∧
      s.stage ≤ s1.stage := by
  unfold Semaphore.increment at h
  cases h
  refine ⟨rfl, rfl, ?_⟩
  simp only [le_min_iff]
  exact ⟨Nat.le_add_right _ _, hs⟩

/-- Invariant carried through a run of semaphore calls. -/
theorem runSemOps_invariant (ops : List SemOp) :
    ∀ s s1 : Semaphore, s.stage ≤ s.num_stages →
      runSemOps s ops = some s1 →
      s1.num_stages = s.num_stages ∧ s.stage ≤ s1.stage ∧
        s1.stage ≤ s.num_stages ∧
        (s.stage = s.num_stages → s1.stage = s.num_stages) := by
  induction ops with
  | nil =>
    intro s s1 hs h
    cases h
    exact ⟨rfl, le_refl _, hs, fun h => h⟩
  | cons op rest ih =>
    intro s s1 hs h
    cases op with
    | signal n =>
      unfold runSemOps at h
      cases hsig : s.signal n with
      | none => rw [hsig] at h; cases h
      | some smid =>
        rw [hsig] at h
        obtain ⟨hnum, hstage, hmono⟩ := signal_cases s smid n hsig
        have hmid : smid.stage ≤ smid.num_stages := by
          rw [hnum, hstage]; exact min_le_right _ _
        obtain ⟨h1, h2, h3, h4⟩ := ih smid s1 hmid h
        refine ⟨h1.trans hnum, hmono.trans h2, hnum ▸ h3, ?_⟩
        intro hc
        have : smid.stage = smid.num_stages := by
          have := hmono
          rw [hc] at this
          omega
        rw [← hnum]
        exact h4 this
    | increment n =>
      unfold runSemOps at h
      cases hinc : s.increment n with
      | none => rw [hinc] at h; cases h
      | some smid =>
        rw [hinc] at h
        obtain ⟨hnum, hstage, hmono⟩ := increment_cases s smid n hs hinc
        have hmid : smid.stage ≤ smid.num_stages := by
          rw [hnum, hstage]; exact min_le_right _ _
        obtain ⟨h1, h2, h3, h4⟩ := ih smid s1 hmid h
        refine ⟨h1.trans hnum, hmono.trans h2, hnum ▸ h3, ?_⟩
        intro hc
        have : smid.stage = smid.num_stages := by
          have := hmono
          rw [hc] at this
          omega
        rw [← hnum]
        exact h4 this

/-- C3: for every `Semaphore` initialized with `num_stages > 0` (so `stage = 0
≤ num_stages`, captured as the invariant `stage ≤ num_stages` that `make`
establishes and every call preserves), every sequence of `signal`/`increment`
calls that returns normally leaves the observable stage monotonically
non-decreasing, never above `num_stages`, and once `stage = num_stages` the
semaphore stays completed: the final `get_stage` is `num_stages` and
`is_completed` is `true`.  Instantiating `ops` at every prefix/suffix of a
call sequence gives stepwise monotonicity. -/
theorem semaphore_stage_invariant (s s1 : Semaphore) (ops : List SemOp)
    (_hpos : 0 < s.num_stages) (hs : s.stage ≤ s.num_stages)
    (hrun : runSemOps s ops = some s1) :
    s1.num_stages = s.num_stages ∧
      s.stage ≤ s1.stage ∧
      s1.stage ≤ s.num_stages ∧
      (s.stage = s.num_stages →
        s1.get_stage = s.num_stages ∧ s1.is_completed = true) := by
  obtain ⟨h1, h2, h3, h4⟩ := runSemOps_invariant ops s s1 hs hrun
  refine ⟨h1, h2, h3, fun hc => ⟨h4 hc, ?_⟩⟩
  have := h4 hc
  simp [Semaphore.is_completed, h1, this]

theorem semaphore_stage_invariant_witness :
    (0 < (Semaphore.make 3).num_stages ∧
        (Semaphore.make 3).stage ≤ (Semaphore.make 3).num_stages ∧
        runSemOps (Semaphore.make 3) [SemOp.signal 2, SemOp.increment 1] =
          some { num_stages := 3, stage := 3 }) ∧
      ({ num_stages := 3, stage := 3 } : Semaphore).num_stages =
          (Semaphore.make 3).num_stages ∧
        (Semaphore.make 3).stage ≤
          ({ num_stages := 3, stage := 3 } : Semaphore).stage ∧
        ({ num_stages := 3, stage := 3 } : Semaphore).stage ≤
          (Semaphore.make 3).num_stages ∧
        ((Semaphore.make 3).stage = (Semaphore.make 3).num_stages →
          ({ num_stages := 3, stage := 3 } : Semaphore).get_stage =
              (Semaphore.make 3).num_stages ∧
            ({ num_stages := 3, stage := 3 } : Semaphore).is_completed =
              true) :=
  ⟨⟨by decide, by decide, by decide⟩,
    semaphore_stage_invariant (Semaphore.make 3) { num_stages := 3, stage := 3 }
      [SemOp.signal 2, SemOp.increment 1] (by decide) (by decide) (by decide)⟩

/-- C4 counterexample: the claim states that `signal(1)` and `increment(5)` on
a `Semaphore{num_stages=3}` return without a fatal error in either sequential
order.  In the order `increment(5); signal(1)`, `increment` drives the stage
to `3` and `signal(1)` then observes `current = 3 > next = 1`, so its
`CHECK(current <= next)` fails: the run is fatal (`none`), refuting the
claim at this concrete input. -/
theorem semaphore_signal_after_increment_fatal :
    runSemOps (Semaphore.make 3) [SemOp.increment 5, SemOp.signal 1] =
      none := by decide

/-- C4 amended: on `Semaphore{num_stages=3}`, in the order `signal(1)` then
`increment(5)` both calls return normally and afterwards `get_stage() = 3`
and `is_completed() = true`; in the reverse order `increment(5)` returns
normally but `signal(1)` hits the fatal monotonic-signal check. -/
theorem semaphore_signal_then_increment_completes :
    (runSemOps (Semaphore.make 3) [SemOp.signal 1, SemOp.increment 5] =
        some { num_stages := 3, stage := 3 } ∧
      ({ num_stages := 3, stage := 3 } : Semaphore).get_stage = 3 ∧
      ({ num_stages := 3, stage := 3 } : Semaphore).is_completed = true) ∧
    runSemOps (Semaphore.make 3) [SemOp.increment 5, SemOp.signal 1] =
      none := by decide

/-! ## `std/async.h` — `SpinLock::try_lock` (claim C10)

From `src/ashura/std/async.h` lines 92-100.  The lock state is the single
`bool flag_` (`false` = free, `true` = held). -/

/-- `compare_exchange_strong(expected, target)` on a `bool`: when the stored
flag equals `expected` it is replaced by `target` and the call succeeds;
otherwise `expected` is overwritten with the observed value.  Returns
`(newFlag, newExpected)`. -/
def casBool (flag expected target : Bool) : Bool × Bool :=
  if flag = expected then (target, expected) else (flag, flag)

/-- `SpinLock::try_lock`: performs one
`flag.compare_exchange_strong(expected = false, target = true)` and returns
`expected` (not the CAS success flag).  Result is
`(returned value, new lock flag)`. -/
def tryLock (flag : Bool) : Bool × Bool :=
  let r := casBool flag false true
  (r.2, r.1)

/-- C10: the claim says `try_lock` returns `true` iff it acquired the lock.
The code returns the previous flag value instead: on a free lock
(`flag_ = false`) it acquires the lock (flag becomes `true`) yet returns
`false`, and on a held lock it fails to acquire yet returns `true`.  This
evaluates the embedded `try_lock` at both states, exhibiting the inversion. -/
theorem tryLock_returns_inverse_of_acquired :
    tryLock false = (false, true) ∧ tryLock true = (true, true) := by decide

/-! ## `engine/canvas.cc` — path tessellation (claims C5, C7)

From `src/ashura/engine/canvas.cc` lines 14-31 (`path::arc`), 224-284
(`path::triangulate_stroke`) and 302-320 (`path::triangulate_convex`).
2D points (`Vec2`, `f32` pairs) are modelled as `ℝ × ℝ`. -/

/-- Modelled from the spec: `rotor` lives in the repository's `std/math.h`,
which is not under `src/`.  The spec describes `circle(N)` (which emits
`rotor(i*step)` directly) as emitting "`N` samples of the unit circle", and
describes the stroke offset `(thickness/2) * rotor(α + π/2)` as
"`±(thickness/2)·(cos α, sin α)`"; both fix `rotor a = (cos a, sin a)`, the
unit-circle sample at angle `a` (also consistent with how `path::rrect` uses
`rotor` for its corner arcs). -/
noncomputable def rotor (a : ℝ) : ℝ × ℝ := (Real.cos a, Real.sin a)

/-- `path::arc(vtx, start, stop, segments)`: returns unchanged when
`segments < 2`; otherwise appends `segments` points, the `i`-th being
`rotor(i * step) * 2 - 1` (componentwise) with
`step = (stop - start) / (segments - 1)`.  Note the angle passed to `rotor`
is `i * step`: the code never adds `start`. -/
noncomputable def pathArc (vtx : List (ℝ × ℝ)) (start stop : ℝ)
    (segments : Nat) : List (ℝ × ℝ) :=
  if segments < 2 then vtx
  else
    let step : ℝ := (stop - start) / ((segments : ℝ) - 1)
    vtx ++ (List.range segments).map (fun i =>
      ((rotor (i * step)).1 * 2 - 1, (rotor (i * step)).2 * 2 - 1))

/-- Claim side of C7, from the spec sentence: the `i`-th emitted point lies on
the unit circle at angle `start + i*(stop-start)/(N-1)` (the claim's
"mapped from [0,2] to [-1,+1]" clause normalizes into the `[-1,+1]` object
space, leaving the unit-circle point itself). -/
noncomputable def arcClaim (vtx : List (ℝ × ℝ)) (start stop : ℝ)
    (segments : Nat) : List (ℝ × ℝ) :=
  if segments < 2 then vtx
  else
    let step : ℝ := (stop - start) / ((segments : ℝ) - 1)
    vtx ++ (List.range segments).map (fun i => rotor (start + i * step))

/-- C7: evaluation of `path::arc` at the failing input
`start = π, stop = 2π, segments = 2` (`step = π`).  The code emits
`rotor(0)*2-1 = (1,-1)` and `rotor(π)*2-1 = (-3,-1)` — it ignores `start`
(the first point is at angle `0`, not `start`) and the `*2-1` remap even
moves the samples off the unit circle — whereas the claim requires the
unit-circle points at angles `π` and `2π`: `(-1,0)` and `(1,0)`. -/
theorem arc_ignores_start :
    pathArc [] Real.pi (2 * Real.pi) 2 = [(1, -1), (-3, -1)] ∧
      arcClaim [] Real.pi (2 * Real.pi) 2 = [(-1, 0), (1, 0)] ∧
      pathArc [] Real.pi (2 * Real.pi) 2 ≠
        arcClaim [] Real.pi (2 * Real.pi) 2 := by
  have hstep : (2 * Real.pi - Real.pi) / (((2 : Nat) : ℝ) - 1) = Real.pi := by
    push_cast
    field_simp
    ring
  have hpp : Real.pi + Real.pi = 2 * Real.pi := by ring
  have h1 : pathArc [] Real.pi (2 * Real.pi) 2 = [(1, -1), (-3, -1)] := by
    unfold pathArc rotor
    rw [if_neg (by norm_num)]
    simp only [List.range_succ, List.range_zero, List.nil_append,
      List.map_cons, List.map_nil, List.append_nil, hstep]
    norm_num [Real.cos_pi, Real.sin_pi]
  have h2 : arcClaim [] Real.pi (2 * Real.pi) 2 = [(-1, 0), (1, 0)] := by
    unfold arcClaim rotor
    rw [if_neg (by norm_num)]
    simp only [List.range_succ, List.range_zero, List.nil_append,
      List.map_cons, List.map_nil, List.append_nil, hstep]
    norm_num [hpp, Real.cos_pi, Real.sin_pi, Real.cos_two_pi,
      Real.sin_two_pi]
  refine ⟨h1, h2, ?_⟩
  rw [h1, h2]
  intro h
  injection h with hhd htl
  have h11 : (1 : ℝ) = -1 := congrArg Prod.fst hhd
  norm_num at h11

/-- `path::triangulate_convex(idx, first_vertex, num_vertices)`: returns `idx`
unchanged when `num_vertices < 3`; otherwise appends `(num_vertices-2)*3`
indices, the loop writing `{first_vertex, first_vertex+v, first_vertex+v+1}`
for `v = 1, 2, …` (here the range variable `w = v - 1`). -/
def triangulateConvex (idx : List Nat) (first_vertex num_vertices : Nat) :
    List Nat :=
  if num_vertices < 3 then idx
  else
    idx ++ (List.range (num_vertices - 2)).flatMap
      (fun w => [first_vertex, first_vertex + (w + 1), first_vertex + (w + 2)])

/-- Claim side of C5: the fan triangles `{first, first+v, first+v+1}` for
`v = 1 .. n-2`, written with the claim's index variable. -/
def fanTriangles (first_vertex num_vertices : Nat) : List Nat :=
  ((List.range (num_vertices - 2)).map (fun w => w + 1)).flatMap
    (fun v => [first_vertex, first_vertex + v, first_vertex + v + 1])

/-- The four vertices `{p0+up, p0+down, p1+up, p1+down}` that
`path::triangulate_stroke` emits for a segment `p0 → p1`:
`α = atan((p1.y - p0.y)/(p1.x - p0.x))`,
`down = (thickness/2) * rotor(α + π/2)`, `up = -down`.
(`atanf` is modelled by `Real.arctan`; a vertical segment divides by zero,
which Lean maps to `0` where `f32` would give `±∞` — the claims about
`triangulate_stroke` only concern element counts, which are unaffected.) -/
noncomputable def strokeQuad (thickness : ℝ) (p : (ℝ × ℝ) × (ℝ × ℝ)) :
    List (ℝ × ℝ) :=
  let p0 := p.1
  let p1 := p.2
  let alpha := Real.arctan ((p1.2 - p0.2) / (p1.1 - p0.1))
  let down := ((thickness / 2) * (rotor (alpha + Real.pi / 2)).1,
               (thickness / 2) * (rotor (alpha + Real.pi / 2)).2)
  let up := (-down.1, -down.2)
  [(p0.1 + up.1, p0.2 + up.2), (p0.1 + down.1, p0.2 + down.2),
   (p1.1 + up.1, p1.2 + up.2), (p1.1 + down.1, p1.2 + down.2)]

/-- Index block written for stroke segment `i` (with `ivtx = 4*i`): the two
quad triangles `{ivtx, ivtx+1, ivtx+3}` and `{ivtx, ivtx+3, ivtx+2}`, followed
for `i ≠ 0` by the two bridging triangles against the previous quad
(`prev = ivtx - 2`).  Indices are relative to the run's first vertex exactly
as in the source (the caller stores `first_vertex` in the `NgonParam`). -/
def strokeIdxBlock (i : Nat) : List Nat :=
  [4*i, 4*i + 1, 4*i + 3, 4*i, 4*i + 3, 4*i + 2] ++
    (if i = 0 then []
     else [4*i - 2, 4*i - 1, 4*i + 1, 4*i - 2, 4*i - 1, 4*i])

/-- `path::triangulate_stroke(points, vertices, indices, thickness)`: returns
both output containers unchanged when `points.size() < 2`; otherwise appends
one `strokeQuad` per adjacent pair of points and one `strokeIdxBlock` per
segment. -/
noncomputable def triangulateStroke (points : List (ℝ × ℝ))
    (vertices : List (ℝ × ℝ)) (indices : List Nat) (thickness : ℝ) :
    List (ℝ × ℝ) × List Nat :=
  if points.length < 2 then (vertices, indices)
  else
    (vertices ++ (points.zip points.tail).flatMap (strokeQuad thickness),
     indices ++ (List.range (points.length - 1)).flatMap strokeIdxBlock)

theorem length_flatMap_const {α β : Type} (f : α → List β) (k : Nat)
    (h : ∀ a, (f a).length = k) :
    ∀ l : List α, (l.flatMap f).length = k * l.length := by
  intro l
  induction l with
  | nil => simp
  | cons a l ih =>
    simp only [List.flatMap_cons, List.length_append, ih, h a,
      List.length_cons]
    ring

theorem length_flatMap_strokeIdxBlock (m : Nat) (hm : 1 ≤ m) :
    ((List.range m).flatMap strokeIdxBlock).length = 6 * m + 6 * (m - 1) := by
  induction m with
  | zero => omega
  | succ m ih =>
    rcases Nat.eq_or_lt_of_le hm with h1 | h1
    · cases h1
      decide
    · have hm1 : 1 ≤ m := by omega
      have hlen : (strokeIdxBlock m).length = 12 := by
        unfold strokeIdxBlock
        rw [if_neg (by omega)]
        simp
      rw [List.range_succ, List.flatMap_append, List.length_append, ih hm1]
      simp only [List.flatMap_cons, List.flatMap_nil, List.append_nil, hlen]
      omega

/-- C5: `path::triangulate_convex` appends exactly `3*(n-2)` indices forming
the fan triangles `{first_vertex, first_vertex+v, first_vertex+v+1}` for
`v = 1 .. n-2` and appends nothing when `n < 3`; and
`path::triangulate_stroke` on `n ≥ 2` points appends exactly `4*(n-1)`
vertices and `6*(n-1) + 6*(n-2)` indices, appending nothing when `n < 2`. -/
theorem path_triangulation_counts :
    (∀ (idx : List Nat) (f n : Nat), 3 ≤ n →
        triangulateConvex idx f n = idx ++ fanTriangles f n ∧
          (triangulateConvex idx f n).length = idx.length + 3 * (n - 2)) ∧
      (∀ (idx : List Nat) (f n : Nat), n < 3 →
        triangulateConvex idx f n = idx) ∧
      (∀ (points vtx : List (ℝ × ℝ)) (idx : List Nat) (t : ℝ),
        2 ≤ points.length →
          (triangulateStroke points vtx idx t).1.length =
              vtx.length + 4 * (points.length - 1) ∧
            (triangulateStroke points vtx idx t).2.length =
              idx.length + (6 * (points.length - 1) +
                6 * (points.length - 2))) ∧
      (∀ (points vtx : List (ℝ × ℝ)) (idx : List Nat) (t : ℝ),
        points.length < 2 → triangulateStroke points vtx idx t = (vtx, idx)) := by
  refine ⟨?_, ?_, ?_, ?_⟩
  · intro idx f n hn
    constructor
    · unfold triangulateConvex fanTriangles
      rw [if_neg (by omega), List.flatMap_map]
      congr 1
    · unfold triangulateConvex
      rw [if_neg (by omega)]
      have hlen := length_flatMap_const
        (fun w => [f, f + (w + 1), f + (w + 2)]) 3 (fun w => rfl)
        (List.range (n - 2))
      rw [List.length_append, hlen, List.length_range]
  · intro idx f n hn
    unfold triangulateConvex
    rw [if_pos hn]
  · intro points vtx idx t hn
    unfold triangulateStroke
    rw [if_neg (by omega)]
    constructor
    · simp only [List.length_append]
      have hlen := length_flatMap_const (strokeQuad t) 4 (fun p => rfl)
        (points.zip points.tail)
      rw [hlen, List.length_zip, List.length_tail]
      have : min points.length (points.length - 1) = points.length - 1 := by
        omega
      rw [this]
    · simp only [List.length_append]
      rw [length_flatMap_strokeIdxBlock (points.length - 1) (by omega)]
      omega
  · intro points vtx idx t hn
    unfold triangulateStroke
    rw [if_pos hn]

theorem path_triangulation_counts_witness :
    (3 ≤ 5 ∧
        (triangulateConvex [9] 7 5).length = 1 + 3 * (5 - 2)) ∧
      ((2 : Nat) < 3 ∧ triangulateConvex [9] 7 2 = [9]) ∧
      (2 ≤ ([((0 : ℝ), (0 : ℝ)), (1, 0), (2, 0)] : List (ℝ × ℝ)).length ∧
        (triangulateStroke [((0 : ℝ), (0 : ℝ)), (1, 0), (2, 0)] [] [] 1).1.length
              = 0 + 4 * (3 - 1) ∧
          (triangulateStroke [((0 : ℝ), (0 : ℝ)), (1, 0), (2, 0)] [] [] 1).2.length
            = 0 + (6 * (3 - 1) + 6 * (3 - 2))) :=
  ⟨⟨by decide, (path_triangulation_counts.1 [9] 7 5 (by decide)).2⟩,
    ⟨by decide, path_triangulation_counts.2.1 [9] 7 2 (by decide)⟩,
    ⟨by decide,
      path_triangulation_counts.2.2.1 [((0 : ℝ), (0 : ℝ)), (1, 0), (2, 0)]
        [] [] 1 (by decide)⟩⟩

/-! ## `engine/canvas.cc` — Canvas recording & batching (claims C1, C8)

From `src/ashura/engine/canvas.cc` lines 286-300 (`path::triangles`), 322-501
(recording machinery, `flush_batch`, `add_rrect`, `add_ngon`), 775-804
(`Canvas::triangles`), 871-887 (`blur`, `add_pass`) and the `Canvas`
declaration in `src/ashura/engine/canvas.h`. -/

/-- `CRect { Vec2 center; Vec2 extent }` with `f32` fields; the batching rule
only copies and compares clips with `==`/`!=` (exact equality), so the fields
are modelled as `ℚ`. -/
structure CRect where
  cx : ℚ
  cy : ℚ
  ex : ℚ
  ey : ℚ
deriving DecidableEq, Repr

/-- `F32_MAX = (2 - 2^-23)·2^127`, the default clip extent. -/
def f32Max : ℚ := 2 ^ 128 - 2 ^ 104

/-- The default clip `{.center{0, 0}, .extent{F32_MAX, F32_MAX}}` used for
both `Canvas::current_clip` and `Batch::clip`. -/
def defaultClip : CRect := { cx := 0, cy := 0, ex := f32Max, ey := f32Max }

/-- `Canvas::BatchType`. -/
inductive BatchType where
  | none
  | rrect
  | ngon
deriving DecidableEq, Repr

/-- `Slice32 { offset, span }` into the active param stream. -/
structure Slice32 where
  offset : Nat
  span : Nat
deriving DecidableEq, Repr

/-- `Canvas::Batch`. -/
structure Batch where
  type : BatchType
  clip : CRect
  objects : Slice32
deriving DecidableEq, Repr

/-- `Canvas::Batch{}` / `Canvas::Batch{.type = BatchType::None}`: the value
`flush_batch` resets to (all other members default-initialized). -/
def defaultBatch : Batch :=
  { type := BatchType.none, clip := defaultClip,
    objects := { offset := 0, span := 0 } }

/-- One recorded `Canvas::Pass`.  A pass produced by `flush_batch` is a
closure capturing the batch by value; its observable content is the batch
snapshot.  Passes appended by `Canvas::add_pass` or `Canvas::blur` are
`custom`. -/
inductive PassEntry where
  | batch (type : BatchType) (clip : CRect) (objects : Slice32)
  | custom
deriving DecidableEq, Repr

/-- The `Canvas` recording state.  The `RRectParam`/`NgonParam` payloads
(transform, tint, uv, …) are pushed but never read back by the recording
machinery, so the two param streams are modelled by their element counts;
`ngon_vertices`/`ngon_indices`/`ngon_index_counts` are kept in full because
`Canvas::triangles` reads their sizes. -/
structure Canvas where
  current_clip : CRect
  rrect_params : Nat
  ngon_params : Nat
  ngon_vertices : List (ℚ × ℚ)
  ngon_indices : List Nat
  ngon_index_counts : List Nat
  batch : Batch
  passes : List PassEntry
deriving DecidableEq, Repr

/-- The state after `begin_recording` (which calls `reset()`, clearing every
stream and the batch; a default-constructed canvas has the default clip). -/
def initCanvas : Canvas :=
  { current_clip := defaultClip, rrect_params := 0, ngon_params := 0,
    ngon_vertices := [], ngon_indices := [], ngon_index_counts := [],
    batch := defaultBatch, passes := [] }

/-- `flush_batch(Canvas &)`: on an `RRect` or `Ngon` batch, appends a pass
capturing the batch and resets `batch` to `{.type = None}`; on `None` does
nothing. -/
def flushBatch (c : Canvas) : Canvas :=
  match c.batch.type with
  | BatchType.rrect =>
    { c with
      passes := c.passes ++
        [PassEntry.batch BatchType.rrect c.batch.clip c.batch.objects],
      batch := defaultBatch }
  | BatchType.ngon =>
    { c with
      passes := c.passes ++
        [PassEntry.batch BatchType.ngon c.batch.clip c.batch.objects],
      batch := defaultBatch }
  | BatchType.none => c

/-- `add_rrect(c, param, clip)`: records `index = rrect_params.size()`, pushes
the param, and either starts a fresh batch `{RRect, clip, {index, 1}}` after
flushing (when the `(batch_type, clip)` tuple differs) or grows the current
batch's span by one. -/
def addRRect (c : Canvas) (clip : CRect) : Canvas :=
  let index := c.rrect_params
  let c1 := { c with rrect_params := c.rrect_params + 1 }
  if c1.batch.type ≠ BatchType.rrect ∨ c1.batch.clip ≠ clip then
    let c2 := flushBatch c1
    { c2 with
      batch := { type := BatchType.rrect, clip := clip,
                 objects := { offset := index, span := 1 } } }
  else
    { c1 with
      batch := { c1.batch with
        objects := { offset := c1.batch.objects.offset,
                     span := c1.batch.objects.span + 1 } } }

/-- `add_ngon(c, param, clip, num_indices)`: records
`index = ngon_params.size()`, pushes the index count and the param, and
batches exactly like `add_rrect` with type `Ngon`. -/
def addNgon (c : Canvas) (clip : CRect) (num_indices : Nat) : Canvas :=
  let index := c.ngon_params
  let c1 := { c with
    ngon_index_counts := c.ngon_index_counts ++ [num_indices],
    ngon_params := c.ngon_params + 1 }
  if c1.batch.type ≠ BatchType.ngon ∨ c1.batch.clip ≠ clip then
    let c2 := flushBatch c1
    { c2 with
      batch := { type := BatchType.ngon, clip := clip,
                 objects := { offset := index, span := 1 } } }
  else
    { c1 with
      batch := { c1.batch with
        objects := { offset := c1.batch.objects.offset,
                     span := c1.batch.objects.span + 1 } } }

/-- One Canvas recording operation, at the granularity the batching rule
observes: `rect`/`circle`/`rrect` reach `add_rrect` with the current clip;
`brect`/`squircle`/`triangles`/`line` reach `add_ngon` (with the op-specific
index count); `clip` only updates `current_clip`; `add_pass` flushes and
appends the given pass; `blur` flushes, records its params and appends a blur
pass (the append is `add_run`, which is not under `src/`; modelled from the
spec: "flushes active batch, appends a Blur pass"). -/
inductive Cmd where
  | setClip (r : CRect)
  | rrectPrim
  | ngonPrim (num_indices : Nat)
  | addPass
  | blur
deriving DecidableEq, Repr

/-- One step of the recording loop. -/
def stepCmd (c : Canvas) : Cmd → Canvas
  | Cmd.setClip r => { c with current_clip := r }
  | Cmd.rrectPrim => addRRect c c.current_clip
  | Cmd.ngonPrim n => addNgon c c.current_clip n
  | Cmd.addPass =>
    let c1 := flushBatch c
    { c1 with passes := c1.passes ++ [PassEntry.custom] }
  | Cmd.blur =>
    let c1 := flushBatch c
    { c1 with passes := c1.passes ++ [PassEntry.custom] }

def runCanvas (c : Canvas) : List Cmd → Canvas
  | [] => c
  | cmd :: rest => runCanvas (stepCmd c cmd) rest

/-- `Canvas::end_recording()`: flushes the active batch. -/
def endRecording (c : Canvas) : Canvas := flushBatch c

/-- Claim-side counter for C1, written from the claim text: walking the
command stream, a primitive is a `(batch_type, clip)` *transition* when its
tuple differs from the open batch's tuple (no batch is open initially or
right after an explicit pass); every `add_pass`/`blur` is an explicit pass. -/
structure TransCount where
  clip : CRect
  cur : Option (BatchType × CRect)
  trans : Nat
  customs : Nat
deriving DecidableEq, Repr

def transStep (t : TransCount) : Cmd → TransCount
  | Cmd.setClip r => { t with clip := r }
  | Cmd.rrectPrim =>
    if t.cur = some (BatchType.rrect, t.clip) then t
    else { t with cur := some (BatchType.rrect, t.clip),
                  trans := t.trans + 1 }
  | Cmd.ngonPrim _ =>
    if t.cur = some (BatchType.ngon, t.clip) then t
    else { t with cur := some (BatchType.ngon, t.clip),
                  trans := t.trans + 1 }
  | Cmd.addPass => { t with cur := Option.none, customs := t.customs + 1 }
  | Cmd.blur => { t with cur := Option.none, customs := t.customs + 1 }

def initTrans : TransCount :=
  { clip := defaultClip, cur := Option.none, trans := 0, customs := 0 }

def runTrans (t : TransCount) : List Cmd → TransCount
  | [] => t
  | cmd :: rest => runTrans (transStep t cmd) rest

/-- The `(batch_type, clip)` tuple of an open batch (`none` when no batch is
open). -/
def batchSig (b : Batch) : Option (BatchType × CRect) :=
  match b.type with
  | BatchType.none => Option.none
  | BatchType.rrect => some (BatchType.rrect, b.clip)
  | BatchType.ngon => some (BatchType.ngon, b.clip)

/-- Number of passes the open batch will still contribute when flushed. -/
def pendingCount (b : Batch) : Nat :=
  match b.type with
  | BatchType.none => 0
  | BatchType.rrect => 1
  | BatchType.ngon => 1

theorem flushBatch_spec (c : Canvas) :
    (flushBatch c).passes.length = c.passes.length + pendingCount c.batch ∧
      (flushBatch c).batch.type = BatchType.none ∧
      (flushBatch c).current_clip = c.current_clip ∧
      (flushBatch c).rrect_params = c.rrect_params ∧
      (flushBatch c).ngon_params = c.ngon_params := by
  cases h : c.batch.type <;>
    simp [flushBatch, h, pendingCount, defaultBatch]

theorem batchSig_eq_some (b : Batch) (ty : BatchType) (r : CRect) :
    batchSig b = some (ty, r) ↔
      b.type = ty ∧ b.clip = r ∧ ty ≠ BatchType.none := by
  cases hb : b.type <;> cases ty <;>
    simp [batchSig, hb, eq_comm]

theorem addRRect_extend (c : Canvas) (clip : CRect)
    (h1 : c.batch.type = BatchType.rrect) (h2 : c.batch.clip = clip) :
    addRRect c clip =
      { c with rrect_params := c.rrect_params + 1,
               batch := { c.batch with
                 objects := { offset := c.batch.objects.offset,
                              span := c.batch.objects.span + 1 } } } := by
  simp only [addRRect]
  rw [if_neg (by simp [h1, h2])]

theorem addRRect_break (c : Canvas) (clip : CRect)
    (h : ¬(c.batch.type = BatchType.rrect ∧ c.batch.clip = clip)) :
    addRRect c clip =
      { flushBatch { c with rrect_params := c.rrect_params + 1 } with
        batch := { type := BatchType.rrect, clip := clip,
                   objects := { offset := c.rrect_params, span := 1 } } } := by
  simp only [addRRect]
  rw [if_pos (by tauto)]

theorem addNgon_extend (c : Canvas) (clip : CRect) (n : Nat)
    (h1 : c.batch.type = BatchType.ngon) (h2 : c.batch.clip = clip) :
    addNgon c clip n =
      { c with ngon_index_counts := c.ngon_index_counts ++ [n],
               ngon_params := c.ngon_params + 1,
               batch := { c.batch with
                 objects := { offset := c.batch.objects.offset,
                              span := c.batch.objects.span + 1 } } } := by
  simp only [addNgon]
  rw [if_neg (by simp [h1, h2])]

theorem addNgon_break (c : Canvas) (clip : CRect) (n : Nat)
    (h : ¬(c.batch.type = BatchType.ngon ∧ c.batch.clip = clip)) :
    addNgon c clip n =
      { flushBatch { c with
          ngon_index_counts := c.ngon_index_counts ++ [n],
          ngon_params := c.ngon_params + 1 } with
        batch := { type := BatchType.ngon, clip := clip,
                   objects := { offset := c.ngon_params, span := 1 } } } := by
  simp only [addNgon]
  rw [if_pos (by tauto)]

theorem batchSig_none (b : Batch) (h : b.type = BatchType.none) :
    batchSig b = Option.none := by
  unfold batchSig
  rw [h]

theorem pendingCount_none (b : Batch) (h : b.type = BatchType.none) :
    pendingCount b = 0 := by
  unfold pendingCount
  rw [h]

/-- The invariant tying the recording state to the claim-side transition
counter. -/
def TransInv (c : Canvas) (t : TransCount) : Prop :=
  c.current_clip = t.clip ∧ batchSig c.batch = t.cur ∧
    c.passes.length + pendingCount c.batch = t.trans + t.customs

theorem stepCmd_trans (c : Canvas) (t : TransCount) (cmd : Cmd)
    (h : TransInv c t) : TransInv (stepCmd c cmd) (transStep t cmd) := by
  obtain ⟨hclip, hsig, hcount⟩ := h
  cases cmd with
  | setClip r => exact ⟨rfl, hsig, hcount⟩
  | rrectPrim =>
    by_cases hmatch : c.batch.type = BatchType.rrect ∧
        c.batch.clip = c.current_clip
    · have hcur : t.cur = some (BatchType.rrect, t.clip) := by
        rw [← hsig, ← hclip]
        exact (batchSig_eq_some _ _ _).mpr ⟨hmatch.1, hmatch.2, by simp⟩
      have ht : transStep t Cmd.rrectPrim = t := by
        simp [transStep, hcur]
      have hc : stepCmd c Cmd.rrectPrim =
          { c with rrect_params := c.rrect_params + 1,
                   batch := { c.batch with
                     objects := { offset := c.batch.objects.offset,
                                  span := c.batch.objects.span + 1 } } } :=
        addRRect_extend c c.current_clip hmatch.1 hmatch.2
      rw [ht, hc]
      refine ⟨hclip, ?_, ?_⟩
      · rw [← hsig]
        simp [batchSig, hmatch.1]
      · simp only [← hcount]
        simp [pendingCount, hmatch.1]
    · have hcur : ¬ t.cur = some (BatchType.rrect, t.clip) := by
        rw [← hsig, ← hclip]
        intro hx
        obtain ⟨hx1, hx2, _⟩ := (batchSig_eq_some _ _ _).mp hx
        exact hmatch ⟨hx1, hx2⟩
      have ht : transStep t Cmd.rrectPrim =
          { t with cur := some (BatchType.rrect, t.clip),
                   trans := t.trans + 1 } := by
        simp [transStep, hcur]
      have hc : stepCmd c Cmd.rrectPrim =
          { flushBatch { c with rrect_params := c.rrect_params + 1 } with
            batch := { type := BatchType.rrect, clip := c.current_clip,
                       objects := { offset := c.rrect_params, span := 1 } } } :=
        addRRect_break c c.current_clip hmatch
      rw [ht, hc]
      obtain ⟨hf1, _, hf3, _, _⟩ :=
        flushBatch_spec { c with rrect_params := c.rrect_params + 1 }
      refine ⟨by rw [hf3]; exact hclip, ?_, ?_⟩
      · simp [batchSig, hclip]
      · show (flushBatch
            { c with rrect_params := c.rrect_params + 1 }).passes.length + 1 =
          t.trans + 1 + t.customs
        rw [hf1]
        have hpl : ({ c with rrect_params := c.rrect_params + 1 } :
            Canvas).passes.length = c.passes.length := rfl
        have hpc : pendingCount ({ c with rrect_params := c.rrect_params + 1 } :
            Canvas).batch = pendingCount c.batch := rfl
        rw [hpl, hpc]
        omega
  | ngonPrim n =>
    by_cases hmatch : c.batch.type = BatchType.ngon ∧
        c.batch.clip = c.current_clip
    · have hcur : t.cur = some (BatchType.ngon, t.clip) := by
        rw [← hsig, ← hclip]
        exact (batchSig_eq_some _ _ _).mpr ⟨hmatch.1, hmatch.2, by simp⟩
      have ht : transStep t (Cmd.ngonPrim n) = t := by
        simp [transStep, hcur]
      have hc : stepCmd c (Cmd.ngonPrim n) =
          { c with ngon_index_counts := c.ngon_index_counts ++ [n],
                   ngon_params := c.ngon_params + 1,
                   batch := { c.batch with
                     objects := { offset := c.batch.objects.offset,
                                  span := c.batch.objects.span + 1 } } } :=
        addNgon_extend c c.current_clip n hmatch.1 hmatch.2
      rw [ht, hc]
      refine ⟨hclip, ?_, ?_⟩
      · rw [← hsig]
        simp [batchSig, hmatch.1]
      · simp only [← hcount]
        simp [pendingCount, hmatch.1]
    · have hcur : ¬ t.cur = some (BatchType.ngon, t.clip) := by
        rw [← hsig, ← hclip]
        intro hx
        obtain ⟨hx1, hx2, _⟩ := (batchSig_eq_some _ _ _).mp hx
        exact hmatch ⟨hx1, hx2⟩
      have ht : transStep t (Cmd.ngonPrim n) =
          { t with cur := some (BatchType.ngon, t.clip),
                   trans := t.trans + 1 } := by
        simp [transStep, hcur]
      have hc : stepCmd c (Cmd.ngonPrim n) =
          { flushBatch { c with
              ngon_index_counts := c.ngon_index_counts ++ [n],
              ngon_params := c.ngon_params + 1 } with
            batch := { type := BatchType.ngon, clip := c.current_clip,
                       objects := { offset := c.ngon_params, span := 1 } } } :=
        addNgon_break c c.current_clip n hmatch
      rw [ht, hc]
      obtain ⟨hf1, _, hf3, _, _⟩ :=
        flushBatch_spec { c with
          ngon_index_counts := c.ngon_index_counts ++ [n],
          ngon_params := c.ngon_params + 1 }
      refine ⟨by rw [hf3]; exact hclip, ?_, ?_⟩
      · simp [batchSig, hclip]
      · show (flushBatch { c with
            ngon_index_counts := c.ngon_index_counts ++ [n],
            ngon_params := c.ngon_params + 1 }).passes.length + 1 =
          t.trans + 1 + t.customs
        rw [hf1]
        have hpl : ({ c with
            ngon_index_counts := c.ngon_index_counts ++ [n],
            ngon_params := c.ngon_params + 1 } :
            Canvas).passes.length = c.passes.length := rfl
        have hpc : pendingCount ({ c with
            ngon_index_counts := c.ngon_index_counts ++ [n],
            ngon_params := c.ngon_params + 1 } :
            Canvas).batch = pendingCount c.batch := rfl
        rw [hpl, hpc]
        omega
  | addPass =>
    obtain ⟨hf1, hf2, hf3, _, _⟩ := flushBatch_spec c
    refine ⟨?_, ?_, ?_⟩
    · show (flushBatch c).current_clip = t.clip
      rw [hf3]
      exact hclip
    · show batchSig (flushBatch c).batch = Option.none
      exact batchSig_none _ hf2
    · show ((flushBatch c).passes ++ [PassEntry.custom]).length +
          pendingCount (flushBatch c).batch = t.trans + (t.customs + 1)
      have hone : ([PassEntry.custom] : List PassEntry).length = 1 := rfl
      rw [List.length_append, hone, hf1, pendingCount_none _ hf2]
      omega
  | blur =>
    obtain ⟨hf1, hf2, hf3, _, _⟩ := flushBatch_spec c
    refine ⟨?_, ?_, ?_⟩
    · show (flushBatch c).current_clip = t.clip
      rw [hf3]
      exact hclip
    · show batchSig (flushBatch c).batch = Option.none
      exact batchSig_none _ hf2
    · show ((flushBatch c).passes ++ [PassEntry.custom]).length +
          pendingCount (flushBatch c).batch = t.trans + (t.customs + 1)
      have hone : ([PassEntry.custom] : List PassEntry).length = 1 := rfl
      rw [List.length_append, hone, hf1, pendingCount_none _ hf2]
      omega

theorem runCanvas_trans (cmds : List Cmd) :
    ∀ (c : Canvas) (t : TransCount), TransInv c t →
      TransInv (runCanvas c cmds) (runTrans t cmds) := by
  induction cmds with
  | nil => intro c t h; exact h
  | cons cmd rest ih =>
    intro c t h
    exact ih _ _ (stepCmd_trans c t cmd h)

/-- C1: (i) after `end_recording`, the number of recorded `Pass` entries
equals the number of `(batch_type, clip)` transitions of the primitive stream
plus the number of explicit `add_pass`/`blur` calls, for every command
sequence; (ii) an emitted primitive extends the current batch — same pass
list, `objects.span` grown by one — exactly when its `(batch_type, clip)`
tuple matches the open batch; otherwise the open batch is flushed and a fresh
batch starts at the current param-stream offset with `span = 1`. -/
theorem canvas_pass_count :
    (∀ cmds : List Cmd,
        (endRecording (runCanvas initCanvas cmds)).passes.length =
          (runTrans initTrans cmds).trans +
            (runTrans initTrans cmds).customs) ∧
      (∀ (c : Canvas) (clip : CRect),
        (c.batch.type = BatchType.rrect ∧ c.batch.clip = clip →
          addRRect c clip =
            { c with rrect_params := c.rrect_params + 1,
                     batch := { c.batch with
                       objects := { offset := c.batch.objects.offset,
                                    span := c.batch.objects.span + 1 } } }) ∧
        (¬(c.batch.type = BatchType.rrect ∧ c.batch.clip = clip) →
          addRRect c clip =
            { flushBatch { c with rrect_params := c.rrect_params + 1 } with
              batch := { type := BatchType.rrect, clip := clip,
                         objects := { offset := c.rrect_params,
                                      span := 1 } } }) ∧
        (∀ n, c.batch.type = BatchType.ngon ∧ c.batch.clip = clip →
          addNgon c clip n =
            { c with ngon_index_counts := c.ngon_index_counts ++ [n],
                     ngon_params := c.ngon_params + 1,
                     batch := { c.batch with
                       objects := { offset := c.batch.objects.offset,
                                    span := c.batch.objects.span + 1 } } }) ∧
        (∀ n, ¬(c.batch.type = BatchType.ngon ∧ c.batch.clip = clip) →
          addNgon c clip n =
            { flushBatch { c with
                ngon_index_counts := c.ngon_index_counts ++ [n],
                ngon_params := c.ngon_params + 1 } with
              batch := { type := BatchType.ngon, clip := clip,
                         objects := { offset := c.ngon_params,
                                      span := 1 } } })) := by
  constructor
  · intro cmds
    have hinv : TransInv (runCanvas initCanvas cmds)
        (runTrans initTrans cmds) :=
      runCanvas_trans cmds initCanvas initTrans ⟨rfl, rfl, rfl⟩
    obtain ⟨_, _, hcount⟩ := hinv
    obtain ⟨hf1, _, _, _, _⟩ := flushBatch_spec (runCanvas initCanvas cmds)
    unfold endRecording
    rw [hf1, hcount]
  · intro c clip
    exact ⟨fun h => addRRect_extend c clip h.1 h.2,
      addRRect_break c clip,
      fun n h => addNgon_extend c clip n h.1 h.2,
      fun n => addNgon_break c clip n⟩

theorem canvas_pass_count_witness :
    ((endRecording (runCanvas initCanvas
          [Cmd.rrectPrim, Cmd.rrectPrim, Cmd.ngonPrim 3,
            Cmd.blur, Cmd.rrectPrim])).passes.length =
        (runTrans initTrans
          [Cmd.rrectPrim, Cmd.rrectPrim, Cmd.ngonPrim 3,
            Cmd.blur, Cmd.rrectPrim]).trans +
          (runTrans initTrans
            [Cmd.rrectPrim, Cmd.rrectPrim, Cmd.ngonPrim 3,
              Cmd.blur, Cmd.rrectPrim]).customs) ∧
      (¬(initCanvas.batch.type = BatchType.rrect ∧
          initCanvas.batch.clip = defaultClip) ∧
        addRRect initCanvas defaultClip =
          { flushBatch { initCanvas with rrect_params := 0 + 1 } with
            batch := { type := BatchType.rrect, clip := defaultClip,
                       objects := { offset := 0, span := 1 } } }) :=
  ⟨(canvas_pass_count.1
      [Cmd.rrectPrim, Cmd.rrectPrim, Cmd.ngonPrim 3,
        Cmd.blur, Cmd.rrectPrim]),
    ⟨by decide,
      ((canvas_pass_count.2 initCanvas defaultClip).2.1 (by decide))⟩⟩

/-! ## `Canvas::triangles` and `path::triangles` (claim C8) -/

/-- `path::triangles(first_vertex, num_vertices, indices)`:
`CHECK(num_vertices > 3)` is fatal (`none`) unless `num_vertices > 3`;
otherwise appends `(num_vertices / 3) * 3` indices, the `k`-th triple being
`{first_vertex + 3k, first_vertex + 3k + 1, first_vertex + 3k + 2}`. -/
def pathTriangles (first_vertex num_vertices : Nat) (indices : List Nat) :
    Option (List Nat) :=
  if 3 < num_vertices then
    some (indices ++ (List.range (num_vertices / 3)).flatMap
      (fun k => [first_vertex + 3 * k, first_vertex + 3 * k + 1,
                 first_vertex + 3 * k + 2]))
  else Option.none

/-- `Canvas::triangles(desc, points)` (non-indexed overload): silently returns
the canvas unchanged when `points.size() < 3`; otherwise copies the points
into `ngon_vertices`, calls `path::triangles` (whose CHECK may abort),
computes `num_indices = ngon_vertices.size() - first_vertex` — the vertex
count, exactly as the source does — and emits one `NgonParam` through
`add_ngon` with the current clip. -/
def canvasTriangles (c : Canvas) (points : List (ℚ × ℚ)) : Option Canvas :=
  if points.length < 3 then some c
  else
    let first_vertex := c.ngon_vertices.length
    let vtx := c.ngon_vertices ++ points
    match pathTriangles first_vertex points.length c.ngon_indices with
    | Option.none => Option.none
    | some idx =>
      let c1 := { c with ngon_vertices := vtx, ngon_indices := idx }
      some (addNgon c1 c1.current_clip (vtx.length - first_vertex))

/-- C8: the claim says `Canvas::triangles(desc, points)` with fewer than 3
points is a silent no-op and with 3 or more points never aborts.  The no-op
half holds, but `path::triangles` asserts `CHECK(num_vertices > 3)`, so a
call with exactly 3 points — one triangle, admitted by the caller's
`points.size() < 3` guard — aborts; with 4 or more points the call succeeds
and pushes exactly one `NgonParam`. -/
theorem canvasTriangles_three_points_aborts :
    canvasTriangles initCanvas [(0, 0), (1, 0)] = some initCanvas ∧
      canvasTriangles initCanvas [(0, 0), (1, 0), (0, 1)] = Option.none ∧
      (canvasTriangles initCanvas
          [(0, 0), (1, 0), (0, 1), (1, 1)]).map
          (fun c => (c.ngon_params, c.ngon_vertices.length)) =
        some (1, 4) := by
  refine ⟨rfl, rfl, rfl⟩

/-! ## `engine/gpu_context.cc` — deferred object release (claim C2)

From `src/ashura/engine/gpu_context.cc` lines 530-539 (`GpuContext::release`)
and 653-702 (`GpuContext::begin_frame`). -/

/-- GPU frame-ring state for the release protocol.  `buffering` is `B`
(`CHECK(p_buffering > 0 && p_buffering <= gpu::MAX_FRAME_BUFFERING)`);
`frame` is the current frame id.  The ring index comes from the backend
(`Device::get_frame_context`), which is not under `src/`; modelled from the
spec: "Ring slot — one of `B` per-frame resource sets cycled by the backend"
and "the ring index advances under the backend device's own frame-fence
machinery" — the frame advances by one per `begin_frame` and
`ring_index = frame % B`.  `released` are the per-ring-slot
`released_objects` queues; `destroyed` logs each backend destructor call,
stamped with the frame in which it ran.  Objects are ids (`Nat`); the
per-type `release` overloads only differ in the stored tag. -/
structure GpuRing where
  buffering : Nat
  frame : Nat
  released : Nat → List Nat
  destroyed : List (Nat × Nat)

def ringIndex (g : GpuRing) : Nat := g.frame % g.buffering

/-- `GpuContext::release(x)` for a non-null object: pushes `x` onto
`released_objects[ring_index()]`. -/
def releaseObj (g : GpuRing) (x : Nat) : GpuRing :=
  { g with released := fun i =>
      if i = ringIndex g then g.released i ++ [x] else g.released i }

/-- `GpuContext::begin_frame`: `device->begin_frame` advances to the next
frame slot; then `uninit_objects` destroys every entry of
`released_objects[ring_index()]` of the re-acquired slot and the queue is
cleared, before any other work is recorded. -/
def beginFrame (g : GpuRing) : GpuRing :=
  { g with frame := g.frame + 1,
           destroyed := g.destroyed ++
             (g.released ((g.frame + 1) % g.buffering)).map
               (fun x => (g.frame + 1, x)),
           released := fun i =>
             if i = (g.frame + 1) % g.buffering then []
             else g.released i }

/-- The externally visible events of the release protocol. -/
inductive GpuEv where
  | rel (x : Nat)
  | begin
deriving DecidableEq, Repr

def runGpu (g : GpuRing) : List GpuEv → GpuRing
  | [] => g
  | GpuEv.rel x :: rest => runGpu (releaseObj g x) rest
  | GpuEv.begin :: rest => runGpu (beginFrame g) rest

/-- A `GpuContext` right after `init` with buffering depth `B`: frame 0,
all release queues empty, nothing destroyed. -/
def initGpu (buffering : Nat) : GpuRing :=
  { buffering := buffering, frame := 0, released := fun _ => [],
    destroyed := [] }

theorem runGpu_append (l1 l2 : List GpuEv) :
    ∀ g : GpuRing, runGpu g (l1 ++ l2) = runGpu (runGpu g l1) l2 := by
  induction l1 with
  | nil => intro g; rfl
  | cons e rest ih =>
    intro g
    cases e with
    | rel x => exact ih (releaseObj g x)
    | begin => exact ih (beginFrame g)

theorem runGpu_buffering (evs : List GpuEv) :
    ∀ g : GpuRing, (runGpu g evs).buffering = g.buffering := by
  induction evs with
  | nil => intro g; rfl
  | cons e rest ih =>
    intro g
    cases e with
    | rel x => exact ih (releaseObj g x)
    | begin => exact ih (beginFrame g)

/-- `x` appears in no release queue and in no destruction-log entry. -/
def AbsentObj (x : Nat) (g : GpuRing) : Prop :=
  (∀ i, x ∉ g.released i) ∧
    g.destroyed.filter (fun pr => pr.2 == x) = []

theorem filter_snd_map_pair (f : Nat) (x : Nat) (l : List Nat) :
    (l.map (fun y => (f, y))).filter (fun pr : Nat × Nat => pr.2 == x) =
      (l.filter (fun y => y == x)).map (fun y => (f, y)) := by
  induction l with
  | nil => rfl
  | cons a l ih =>
    by_cases ha : a = x
    · simp [ha, ih]
    · simp [List.filter_cons, ha, ih]

theorem filter_eq_nil_of_not_mem (x : Nat) (l : List Nat) (h : x ∉ l) :
    l.filter (fun y => y == x) = [] := by
  rw [List.filter_eq_nil_iff]
  intro a ha
  simp only [beq_iff_eq]
  intro hax
  exact h (hax ▸ ha)

theorem filter_eq_single_of_count_one (l : List Nat) (x : Nat)
    (h : l.count x = 1) : l.filter (fun y => y == x) = [x] := by
  have hlen : (l.filter (fun y => y == x)).length = 1 := by
    rw [← h, List.count_eq_countP, List.countP_eq_length_filter]
  have hmem : ∀ y ∈ l.filter (fun y => y == x), y = x := by
    intro y hy
    have := List.of_mem_filter hy
    simpa using this
  cases hf : l.filter (fun y => y == x) with
  | nil => rw [hf] at hlen; simp at hlen
  | cons a t =>
    cases t with
    | nil =>
      have : a = x := hmem a (by rw [hf]; exact List.mem_cons_self a [])
      rw [this]
    | cons b t2 => rw [hf] at hlen; simp at hlen

theorem runGpu_absent (x : Nat) (evs : List GpuEv)
    (hevs : ∀ e ∈ evs, e ≠ GpuEv.rel x) :
    ∀ g : GpuRing, AbsentObj x g → AbsentObj x (runGpu g evs) := by
  induction evs with
  | nil => intro g h; exact h
  | cons e rest ih =>
    intro g h
    obtain ⟨hq, hd⟩ := h
    have hrest : ∀ e ∈ rest, e ≠ GpuEv.rel x := by
      intro e he
      exact hevs e (List.mem_cons_of_mem _ he)
    cases e with
    | rel y =>
      have hyx : y ≠ x := by
        intro hcontra
        exact hevs (GpuEv.rel y) (List.mem_cons_self _ _) (by rw [hcontra])
      refine ih hrest (releaseObj g y) ⟨?_, hd⟩
      intro i
      show x ∉ (if i = ringIndex g then g.released i ++ [y] else g.released i)
      by_cases hi : i = ringIndex g
      · rw [if_pos hi]
        intro hmem
        rcases List.mem_append.mp hmem with hmem | hmem
        · exact hq i hmem
        · simp at hmem
          exact hyx hmem.symm
      · rw [if_neg hi]
        exact hq i
    | begin =>
      refine ih hrest (beginFrame g) ⟨?_, ?_⟩
      · intro i
        show x ∉ (if i = (g.frame + 1) % g.buffering then []
          else g.released i)
        by_cases hi : i = (g.frame + 1) % g.buffering
        · rw [if_pos hi]; simp
        · rw [if_neg hi]; exact hq i
      · show (g.destroyed ++
            (g.released ((g.frame + 1) % g.buffering)).map
              (fun y => (g.frame + 1, y))).filter
            (fun pr => pr.2 == x) = []
        rw [List.filter_append, hd, filter_snd_map_pair,
          filter_eq_nil_of_not_mem x _ (hq _)]
        rfl

/-- The release invariant for a single object `x` released during frame `N`
of a ring with depth `B`: while the current frame is below `N + B`, `x` sits
exactly once in queue `N % B`, in no other queue, and has not been destroyed;
from frame `N + B` on, `x` is in no queue and the destruction log contains
exactly the entry `(N + B, x)`. -/
def RelInv (B N x : Nat) (g : GpuRing) : Prop :=
  g.buffering = B ∧ N ≤ g.frame ∧
    (g.frame < N + B →
      (g.released (N % B)).count x = 1 ∧
        (∀ i, i ≠ N % B → x ∉ g.released i) ∧
        g.destroyed.filter (fun pr => pr.2 == x) = []) ∧
    (N + B ≤ g.frame →
      (∀ i, x ∉ g.released i) ∧
        g.destroyed.filter (fun pr => pr.2 == x) = [(N + B, x)])

theorem relInv_release (B N x y : Nat) (g : GpuRing) (hyx : y ≠ x)
    (h : RelInv B N x g) : RelInv B N x (releaseObj g y) := by
  obtain ⟨hbuf, hNf, hlt, hge⟩ := h
  have hq : ∀ i, (releaseObj g y).released i =
      (if i = ringIndex g then g.released i ++ [y] else g.released i) :=
    fun i => rfl
  refine ⟨hbuf, hNf, ?_, ?_⟩
  · intro hframe
    obtain ⟨hc, hother, hdest⟩ := hlt hframe
    refine ⟨?_, ?_, hdest⟩
    · rw [hq]
      by_cases hi : N % B = ringIndex g
      · rw [if_pos hi, List.count_append, hc,
          List.count_eq_zero.mpr
            (by simp only [List.mem_singleton]; exact Ne.symm hyx)]
      · rw [if_neg hi]
        exact hc
    · intro i hi
      rw [hq]
      by_cases hri : i = ringIndex g
      · rw [if_pos hri]
        intro hmem
        rcases List.mem_append.mp hmem with hmem | hmem
        · exact hother i hi hmem
        · simp at hmem
          exact hyx hmem.symm
      · rw [if_neg hri]
        exact hother i hi
  · intro hframe
    obtain ⟨hall, hdest⟩ := hge hframe
    refine ⟨?_, hdest⟩
    intro i
    rw [hq]
    by_cases hri : i = ringIndex g
    · rw [if_pos hri]
      intro hmem
      rcases List.mem_append.mp hmem with hmem | hmem
      · exact hall i hmem
      · simp at hmem
        exact hyx hmem.symm
    · rw [if_neg hri]
      exact hall i

theorem relInv_begin (B N x : Nat) (g : GpuRing) (_hB : 0 < B)
    (h : RelInv B N x g) : RelInv B N x (beginFrame g) := by
  obtain ⟨hbuf, hNf, hlt, hge⟩ := h
  have hq : ∀ i, (beginFrame g).released i =
      (if i = (g.frame + 1) % g.buffering then [] else g.released i) :=
    fun i => rfl
  have hd : (beginFrame g).destroyed =
      g.destroyed ++ (g.released ((g.frame + 1) % g.buffering)).map
        (fun y => (g.frame + 1, y)) := rfl
  have hf : (beginFrame g).frame = g.frame + 1 := rfl
  refine ⟨hbuf, by rw [hf]; omega, ?_, ?_⟩
  · -- new frame still below N + B: the drained slot is not x's slot
    intro hframe
    rw [hf] at hframe
    obtain ⟨hc, hother, hdest⟩ := hlt (by omega)
    have hslot : (g.frame + 1) % g.buffering ≠ N % B := by
      rw [hbuf]
      intro hcontra
      have hlt1 : N < g.frame + 1 := by omega
      have hlt2 : g.frame + 1 < N + B := hframe
      have hdvd : B ∣ (g.frame + 1) - N :=
        (Nat.modEq_iff_dvd' (by omega)).mp hcontra.symm
      have hpos : 0 < (g.frame + 1) - N := by omega
      have := Nat.le_of_dvd hpos hdvd
      omega
    refine ⟨?_, ?_, ?_⟩
    · rw [hq, if_neg (Ne.symm hslot)]
      exact hc
    · intro i hi
      rw [hq]
      by_cases hri : i = (g.frame + 1) % g.buffering
      · rw [if_pos hri]
        simp
      · rw [if_neg hri]
        exact hother i hi
    · rw [hd, List.filter_append, hdest, filter_snd_map_pair,
        filter_eq_nil_of_not_mem x _ (hother _ hslot)]
      rfl
  · intro hframe
    rw [hf] at hframe
    by_cases hcase : g.frame < N + B
    · -- this begin_frame crosses into frame N + B: it drains x's slot
      have heq : g.frame + 1 = N + B := by omega
      obtain ⟨hc, hother, hdest⟩ := hlt hcase
      have hslot : (g.frame + 1) % g.buffering = N % B := by
        rw [hbuf, heq]
        exact Nat.add_mod_right N B
      refine ⟨?_, ?_⟩
      · intro i
        rw [hq]
        by_cases hri : i = (g.frame + 1) % g.buffering
        · rw [if_pos hri]
          simp
        · rw [if_neg hri]
          refine hother i ?_
          rw [← hslot]
          exact hri
      · rw [hd, List.filter_append, hdest, List.nil_append,
          filter_snd_map_pair, hslot,
          filter_eq_single_of_count_one _ _ hc, List.map_cons, List.map_nil,
          heq]
    · -- already past N + B: drained queues contain no x
      obtain ⟨hall, hdest⟩ := hge (by omega)
      refine ⟨?_, ?_⟩
      · intro i
        rw [hq]
        by_cases hri : i = (g.frame + 1) % g.buffering
        · rw [if_pos hri]
          simp
        · rw [if_neg hri]
          exact hall i
      · rw [hd, List.filter_append, hdest, filter_snd_map_pair,
          filter_eq_nil_of_not_mem x _ (hall _), List.map_nil,
          List.append_nil]

theorem runGpu_relInv (B N x : Nat) (q : List GpuEv) (hB : 0 < B)
    (hq : ∀ e ∈ q, e ≠ GpuEv.rel x) :
    ∀ g : GpuRing, RelInv B N x g → RelInv B N x (runGpu g q) := by
  induction q with
  | nil => intro g h; exact h
  | cons e rest ih =>
    intro g h
    have hrest : ∀ e ∈ rest, e ≠ GpuEv.rel x := by
      intro e he
      exact hq e (List.mem_cons_of_mem _ he)
    cases e with
    | rel y =>
      have hyx : y ≠ x := by
        intro hcontra
        exact hq (GpuEv.rel y) (List.mem_cons_self _ _) (by rw [hcontra])
      exact ih hrest (releaseObj g y) (relInv_release B N x y g hyx h)
    | begin =>
      exact ih hrest (beginFrame g) (relInv_begin B N x g hB h)

/-- C2: for every buffering depth `B > 0` and every event trace in which the
object `x` is released exactly once — during frame
`N = (runGpu (initGpu B) p).frame` — every destruction-log entry for `x` is
stamped with frame `N + B` (so `x` is destroyed no earlier than the start of
frame `N + B`, which `begin_frame` opens by draining exactly the ring slot it
re-acquires), `x` is destroyed at most once, and as soon as the trace reaches
frame `N + B` it is destroyed exactly once. -/
theorem release_destroyed_once_after_B_frames (B x : Nat) (p q : List GpuEv)
    (hB : 0 < B)
    (hp : ∀ e ∈ p, e ≠ GpuEv.rel x) (hq : ∀ e ∈ q, e ≠ GpuEv.rel x) :
    (∀ pr ∈ (runGpu (initGpu B) (p ++ GpuEv.rel x :: q)).destroyed,
        pr.2 = x →
          pr.1 = (runGpu (initGpu B) p).frame + B) ∧
      ((runGpu (initGpu B) (p ++ GpuEv.rel x :: q)).destroyed.filter
          (fun pr => pr.2 == x)).length ≤ 1 ∧
      ((runGpu (initGpu B) p).frame + B ≤
          (runGpu (initGpu B) (p ++ GpuEv.rel x :: q)).frame →
        (runGpu (initGpu B) (p ++ GpuEv.rel x :: q)).destroyed.filter
            (fun pr => pr.2 == x) =
          [((runGpu (initGpu B) p).frame + B, x)]) := by
  set g0 := runGpu (initGpu B) p with hg0
  set N := g0.frame with hN
  have habs : AbsentObj x g0 :=
    runGpu_absent x p hp (initGpu B) ⟨fun i => List.not_mem_nil x, rfl⟩
  have hbuf : g0.buffering = B := by
    rw [hg0, runGpu_buffering]
    rfl
  have hsplit : runGpu (initGpu B) (p ++ GpuEv.rel x :: q) =
      runGpu (releaseObj g0 x) q := by
    rw [runGpu_append, ← hg0]
    rfl
  have hbase : RelInv B N x (releaseObj g0 x) := by
    obtain ⟨hqueues, hdest⟩ := habs
    refine ⟨hbuf, le_refl N, ?_, ?_⟩
    · intro _
      refine ⟨?_, ?_, ?_⟩
      · show (if N % B = ringIndex g0 then g0.released (N % B) ++ [x]
            else g0.released (N % B)).count x = 1
        have hring : ringIndex g0 = N % B := by
          unfold ringIndex
          rw [hbuf, ← hN]
        rw [hring, if_pos rfl, List.count_append]
        rw [List.count_eq_zero.mpr (hqueues _)]
        simp
      · intro i hi
        show x ∉ (if i = ringIndex g0 then g0.released i ++ [x]
            else g0.released i)
        have hring : ringIndex g0 = N % B := by
          unfold ringIndex
          rw [hbuf, ← hN]
        rw [if_neg (by rw [hring]; exact hi)]
        exact hqueues i
      · exact hdest
    · intro hcontra
      have hfr : (releaseObj g0 x).frame = N := rfl
      omega
  have hfin : RelInv B N x (runGpu (releaseObj g0 x) q) :=
    runGpu_relInv B N x q hB hq (releaseObj g0 x) hbase
  rw [hsplit]
  obtain ⟨_, hNf, hlt, hge⟩ := hfin
  by_cases hframe : (runGpu (releaseObj g0 x) q).frame < N + B
  · obtain ⟨_, _, hdest⟩ := hlt hframe
    refine ⟨?_, ?_, ?_⟩
    · intro pr hpr hx
      exfalso
      have : pr ∈ (runGpu (releaseObj g0 x) q).destroyed.filter
          (fun pr => pr.2 == x) :=
        List.mem_filter.mpr ⟨hpr, by simp [hx]⟩
      rw [hdest] at this
      exact List.not_mem_nil pr this
    · rw [hdest]
      simp
    · intro hcontra
      omega
  · obtain ⟨_, hdest⟩ := hge (by omega)
    refine ⟨?_, ?_, fun _ => hdest⟩
    · intro pr hpr hx
      have : pr ∈ (runGpu (releaseObj g0 x) q).destroyed.filter
          (fun pr => pr.2 == x) :=
        List.mem_filter.mpr ⟨hpr, by simp [hx]⟩
      rw [hdest] at this
      simp at this
      rw [this]
    · rw [hdest]
      simp

theorem release_destroyed_once_witness :
    (0 < 2 ∧
        (∀ e ∈ ([] : List GpuEv), e ≠ GpuEv.rel 7) ∧
        (∀ e ∈ [GpuEv.begin, GpuEv.begin, GpuEv.begin],
          e ≠ GpuEv.rel 7)) ∧
      ((runGpu (initGpu 2)
            ([] ++ GpuEv.rel 7 ::
              [GpuEv.begin, GpuEv.begin, GpuEv.begin])).destroyed.filter
          (fun pr => pr.2 == 7)).length ≤ 1 ∧
      ((runGpu (initGpu 2) []).frame + 2 ≤
          (runGpu (initGpu 2)
            ([] ++ GpuEv.rel 7 ::
              [GpuEv.begin, GpuEv.begin, GpuEv.begin])).frame →
        (runGpu (initGpu 2)
            ([] ++ GpuEv.rel 7 ::
              [GpuEv.begin, GpuEv.begin, GpuEv.begin])).destroyed.filter
            (fun pr => pr.2 == 7) =
          [((runGpu (initGpu 2) []).frame + 2, 7)]) :=
  ⟨⟨by decide, by decide, by decide⟩,
    (release_destroyed_once_after_B_frames 2 7 []
        [GpuEv.begin, GpuEv.begin, GpuEv.begin] (by decide) (by decide)
        (by decide)).2⟩

/-! ## `engine/gpu_context.cc` — sampler cache (claim C9)

From `src/ashura/engine/gpu_context.cc` lines 478-502
(`GpuContext::create_sampler`) and 517-527
(`alloc_sampler_slot`/`release_sampler_slot`). -/

/-- `CachedSampler { gpu::Sampler sampler; u32 slot }`.  The opaque backend
sampler handle is modelled by the index of the backend `create_sampler` call
that produced it. -/
structure CachedSampler where
  sampler : Nat
  slot : Nat
deriving DecidableEq, Repr

/-- The `GpuContext` state that `create_sampler` touches: the
`sampler_cache` hash map (modelled as an association list keyed by the
sampler descriptor, itself modelled as `Nat`; cache hits compare descriptors
for hash-equality), the `sampler_slots` bitset, the number of backend
`device->create_sampler` calls made so far, and the log of
`update_descriptor_set` calls `(element, sampler)` on the sampler array. -/
structure SamplerState where
  cache : List (Nat × CachedSampler)
  slots : List Bool
  created : Nat
  descUpdates : List (Nat × Nat)
deriving DecidableEq, Repr

/-- Hash-map lookup `sampler_cache[desc]` (association-list model). -/
def lookupCache (d : Nat) : List (Nat × CachedSampler) → Option CachedSampler
  | [] => Option.none
  | (k, v) :: rest => if k = d then some v else lookupCache d rest

/-- `find_clear_bit`: index of the first clear bit; `none` when every bit is
set (in which case `alloc_sampler_slot`'s `CHECK_DESC` is fatal). -/
def findClearBit : List Bool → Option Nat
  | [] => Option.none
  | b :: rest => if b then (findClearBit rest).map (fun i => i + 1)
      else some 0

/-- `GpuContext::create_sampler(desc)`: returns the cached `{sampler, slot}`
when `desc` is already in the cache (no state change); otherwise creates a
backend sampler, allocates a sampler slot (first clear bit; fatal when out of
slots), updates the sampler descriptor set at that element, inserts the new
entry into the cache and returns it. -/
def createSampler (g : SamplerState) (d : Nat) :
    Option (CachedSampler × SamplerState) :=
  match lookupCache d g.cache with
  | some c => some (c, g)
  | Option.none =>
    match findClearBit g.slots with
    | Option.none => Option.none
    | some i =>
      let c : CachedSampler := { sampler := g.created, slot := i }
      some (c, { cache := g.cache ++ [(d, c)],
                 slots := g.slots.set i true,
                 created := g.created + 1,
                 descUpdates := g.descUpdates ++ [(i, c.sampler)] })

/-- Result of the `k`-th consecutive `create_sampler(d)` call (each call runs
on the state produced by the previous one); `none` for `k = 0` or when a call
is fatal. -/
def createSamplerK (g : SamplerState) (d : Nat) :
    Nat → Option (CachedSampler × SamplerState)
  | 0 => Option.none
  | 1 => createSampler g d
  | Nat.succ (Nat.succ k) =>
    match createSamplerK g d (Nat.succ k) with
    | some p => createSampler p.2 d
    | Option.none => Option.none

theorem lookupCache_append_self (d : Nat) (c : CachedSampler) :
    ∀ l : List (Nat × CachedSampler), lookupCache d l = Option.none →
      lookupCache d (l ++ [(d, c)]) = some c := by
  intro l
  induction l with
  | nil =>
    intro _
    show (if d = d then some c else lookupCache d []) = some c
    rw [if_pos rfl]
  | cons kv rest ih =>
    intro h
    show (if kv.1 = d then some kv.2 else lookupCache d (rest ++ [(d, c)])) =
      some c
    have hshape : (if kv.1 = d then some kv.2 else lookupCache d rest) =
        Option.none := h
    by_cases hk : kv.1 = d
    · rw [if_pos hk] at hshape
      cases hshape
    · rw [if_neg hk] at hshape
      rw [if_neg hk]
      exact ih hshape

theorem findClearBit_spec (l : List Bool) :
    ∀ i : Nat, findClearBit l = some i → l.get? i = some false := by
  induction l with
  | nil => intro i h; cases h
  | cons b rest ih =>
    intro i h
    cases b with
    | false =>
      have h0 : some (0 : Nat) = some i := h
      cases h0
      rfl
    | true =>
      have hstep : findClearBit (true :: rest) =
          (findClearBit rest).map (fun j => j + 1) := rfl
      rw [hstep] at h
      cases hr : findClearBit rest with
      | none => rw [hr] at h; cases h
      | some j =>
        rw [hr] at h
        have hij : i = j + 1 := by
          simp at h
          omega
        rw [hij]
        exact ih j hr

theorem count_set_true (l : List Bool) :
    ∀ i : Nat, l.get? i = some false →
      (l.set i true).count true = l.count true + 1 := by
  induction l with
  | nil => intro i h; cases h
  | cons b rest ih =>
    intro i h
    cases i with
    | zero =>
      have hb : b = false := by
        have : some b = some false := h
        cases this
        rfl
      rw [hb]
      show (true :: rest).count true = (false :: rest).count true + 1
      simp [List.count_cons]
    | succ j =>
      have hj : rest.get? j = some false := h
      show (b :: rest.set j true).count true = (b :: rest).count true + 1
      rw [List.count_cons, List.count_cons, ih j hj]
      omega

/-- C9: when `desc` is not yet cached (the state of the first call), a
successful `create_sampler(desc)` creates exactly one backend sampler
(`created` grows by one), allocates exactly one sampler slot (one more set
bit), performs exactly one descriptor-set update — and every later
`create_sampler(desc)` call hits the cache: it returns the same
`{sampler, slot}` pair and leaves the state untouched, so the `k`-th call
returns the identical pair and state for every `k ≥ 1`. -/
theorem create_sampler_idempotent (g : SamplerState) (d : Nat)
    (c : CachedSampler) (g1 : SamplerState)
    (hmiss : lookupCache d g.cache = Option.none)
    (h : createSampler g d = some (c, g1)) :
    createSampler g1 d = some (c, g1) ∧
      g1.created = g.created + 1 ∧
      g1.slots.count true = g.slots.count true + 1 ∧
      g1.descUpdates.length = g.descUpdates.length + 1 ∧
      (∀ k, 1 ≤ k → createSamplerK g d k = some (c, g1)) := by
  have h0 := h
  have hshape : createSampler g d =
      (match findClearBit g.slots with
        | Option.none => Option.none
        | some i =>
          some ({ sampler := g.created, slot := i },
            { cache := g.cache ++ [(d, { sampler := g.created, slot := i })],
              slots := g.slots.set i true,
              created := g.created + 1,
              descUpdates := g.descUpdates ++ [(i, g.created)] })) := by
    unfold createSampler
    rw [hmiss]
  cases hfind : findClearBit g.slots with
  | none =>
    rw [hshape, hfind] at h
    cases h
  | some i =>
    rw [hshape, hfind] at h
    have hc : c = { sampler := g.created, slot := i } := by
      cases h
      rfl
    have hg1 : g1 =
        { cache := g.cache ++ [(d, { sampler := g.created, slot := i })],
          slots := g.slots.set i true,
          created := g.created + 1,
          descUpdates := g.descUpdates ++ [(i, g.created)] } := by
      cases h
      rfl
    have hhit : createSampler g1 d = some (c, g1) := by
      unfold createSampler
      rw [hg1]
      have : lookupCache d
          (g.cache ++ [(d, { sampler := g.created, slot := i })]) =
          some { sampler := g.created, slot := i } :=
        lookupCache_append_self d _ g.cache hmiss
      rw [this, hc]
    refine ⟨hhit, by rw [hg1], ?_, ?_, ?_⟩
    · rw [hg1]
      exact count_set_true g.slots i (findClearBit_spec g.slots i hfind)
    · rw [hg1]
      simp
    · intro k hk
      induction k with
      | zero => omega
      | succ k ihk =>
        cases k with
        | zero => exact h0
        | succ k2 =>
          have hks : 1 ≤ k2 + 1 := by omega
          show (match createSamplerK g d (Nat.succ k2) with
            | some p => createSampler p.2 d
            | Option.none => Option.none) = some (c, g1)
          rw [ihk hks]
          exact hhit

theorem create_sampler_idempotent_witness :
    (lookupCache 5 ([] : List (Nat × CachedSampler)) = Option.none ∧
        createSampler
            { cache := [], slots := [false, false, false, false],
              created := 0, descUpdates := [] } 5 =
          some ({ sampler := 0, slot := 0 },
            { cache := [(5, { sampler := 0, slot := 0 })],
              slots := [true, false, false, false],
              created := 1, descUpdates := [(0, 0)] })) ∧
      (∀ k, 1 ≤ k →
        createSamplerK
            { cache := [], slots := [false, false, false, false],
              created := 0, descUpdates := [] } 5 k =
          some ({ sampler := 0, slot := 0 },
            { cache := [(5, { sampler := 0, slot := 0 })],
              slots := [true, false, false, false],
              created := 1, descUpdates := [(0, 0)] })) :=
  ⟨⟨by decide, by decide⟩,
    (create_sampler_idempotent
        { cache := [], slots := [false, false, false, false],
          created := 0, descUpdates := [] } 5
        { sampler := 0, slot := 0 }
        { cache := [(5, { sampler := 0, slot := 0 })],
          slots := [true, false, false, false],
          created := 1, descUpdates := [(0, 0)] }
        (by decide) (by decide)).2.2.2.2⟩

/-! ## `engine/text.cc` — text layout line breaking (claim C6)

From `src/ashura/engine/text.cc` lines 77-478 (`layout`).  The embedding
works at codepoint granularity (the source walks UTF-8 bytes with
`utf8_next`; one iteration per codepoint).  The external collaborators —
SheenBidi (paragraphs, levels, scripts) and HarfBuzz (shaping) — are not
under `src/` and are modelled as oracles/`Modelled from the spec`
definitions; the claim is proved for every oracle. -/

/-- Modelled from the spec: the paragraph decomposition produced by the
external `SBAlgorithmCreateParagraph` loop (`SheenBidi` is not under
`src/`).  The spec says "mark paragraph boundaries at `\r`, `\n`, and `\r\n`
sequences"; each paragraph extends up to and including its separator
(`SBParagraphGetLength` counts the separator and
`paragraph_begin += paragraph_length` resumes right after it), and a final
chunk without separator forms the last paragraph. -/
def splitParagraphsAux : List Char → List Char → List (List Char)
  | [], acc => if acc.isEmpty then [] else [acc.reverse]
  | ch :: rest, acc =>
    if ch = '\r' then
      if rest.head? = some '\n' then
        (acc.reverse ++ ['\r', '\n']) :: splitParagraphsAux rest.tail []
      else (acc.reverse ++ ['\r']) :: splitParagraphsAux rest []
    else if ch = '\n' then
      (acc.reverse ++ ['\n']) :: splitParagraphsAux rest []
    else splitParagraphsAux rest (ch :: acc)
termination_by cs _ => cs.length
decreasing_by
  all_goals simp only [List.length_cons, List.length_tail]
  all_goals omega

def splitParagraphs (cs : List Char) : List (List Char) :=
  splitParagraphsAux cs []

/-- The per-codepoint key the run loop compares: `(level, script, style)`.
Levels come from `SBParagraphGetLevelsPtr`, script runs from
`SBScriptLocator`, styles from the `block.runs`/`run_it` walk; the first two
are external, so the whole key is an oracle parameter (position ↦ key) and
the theorems hold for every oracle. -/
def RunKey := Nat × Nat × Nat

instance : DecidableEq RunKey := by
  unfold RunKey
  infer_instance

/-- The inner extension loop of the run splitter (`canvas.cc` analogue of
`text.cc` lines 217-257): starting at position `i`, consume codepoints while
their key equals the run's key; returns the consumed extension, the next
position and the remainder. -/
def takeRun (k : RunKey) (key : Nat → RunKey) :
    Nat → List Char → List Char × Nat × List Char
  | i, [] => ([], i, [])
  | i, ch :: rest =>
    if key i = k then
      let r := takeRun k key (i + 1) rest
      (ch :: r.1, r.2.1, r.2.2)
    else ([], i, ch :: rest)

theorem takeRun_rem_length (k : RunKey) (key : Nat → RunKey) :
    ∀ (cs : List Char) (i : Nat),
      (takeRun k key i cs).2.2.length ≤ cs.length := by
  intro cs
  induction cs with
  | nil => intro i; exact Nat.le_refl _
  | cons ch rest ih =>
    intro i
    show (if key i = k then
        let r := takeRun k key (i + 1) rest
        (ch :: r.1, r.2.1, r.2.2)
      else ([], i, ch :: rest)).2.2.length ≤ (ch :: rest).length
    by_cases hk : key i = k
    · rw [if_pos hk]
      exact Nat.le_succ_of_le (ih (i + 1))
    · rw [if_neg hk]

/-- The run loop (`text.cc` lines 165-257): each iteration starts a run at
the current position and extends it while `(level, script, style)` stays
equal, then continues with the remainder. -/
def splitRuns (key : Nat → RunKey) (i : Nat) : List Char → List (List Char)
  | [] => []
  | ch :: rest =>
    let r := takeRun (key i) key (i + 1) rest
    (ch :: r.1) :: splitRuns key r.2.1 r.2.2
termination_by cs => cs.length
decreasing_by
  exact Nat.lt_succ_of_le (takeRun_rem_length (key i) key rest (i + 1))

/-- The segmentation scan (`text.cc` lines 263-284): consume codepoints,
remembering in `has` whether a space/tab was seen; spaces and tabs are
batched into the current segment, and the segment ends right before the
first non-spacing codepoint that follows spacing.  Returns the segment, its
`has_spacing` flag and the remainder. -/
def takeSeg : List Char → Bool → List Char × Bool × List Char
  | [], has => ([], has, [])
  | ch :: rest, has =>
    if ch = ' ' ∨ ch = '\t' then
      let r := takeSeg rest true
      (ch :: r.1, r.2.1, r.2.2)
    else if has then ([], has, ch :: rest)
    else
      let r := takeSeg rest false
      (ch :: r.1, r.2.1, r.2.2)

theorem takeSeg_rem_length :
    ∀ (cs : List Char) (has : Bool),
      (takeSeg cs has).2.2.length ≤ cs.length := by
  intro cs
  induction cs with
  | nil => intro has; exact Nat.le_refl _
  | cons ch rest ih =>
    intro has
    show (if ch = ' ' ∨ ch = '\t' then
        let r := takeSeg rest true
        (ch :: r.1, r.2.1, r.2.2)
      else if has then ([], has, ch :: rest)
      else
        let r := takeSeg rest false
        (ch :: r.1, r.2.1, r.2.2)).2.2.length ≤ (ch :: rest).length
    by_cases hsp : ch = ' ' ∨ ch = '\t'
    · rw [if_pos hsp]
      exact Nat.le_succ_of_le (ih true)
    · rw [if_neg hsp]
      cases has with
      | true => rw [if_pos rfl]
      | false =>
        rw [if_neg (by simp)]
        exact Nat.le_succ_of_le (ih false)

/-- The text-segmentation loop (`text.cc` lines 260-340) restricted to its
segment boundaries: split a run into whitespace-batched segments. -/
def wsSegments : List Char → List (List Char × Bool)
  | [] => []
  | ch :: rest =>
    let r := takeSeg (ch :: rest) false
    (r.1, r.2.1) :: wsSegments r.2.2
termination_by cs => cs.length
decreasing_by
  show (if ch = ' ' ∨ ch = '\t' then
      let r := takeSeg rest true
      (ch :: r.1, r.2.1, r.2.2)
    else if false = true then ([], false, ch :: rest)
    else
      let r := takeSeg rest false
      (ch :: r.1, r.2.1, r.2.2)).2.2.length < (ch :: rest).length
  by_cases hsp : ch = ' ' ∨ ch = '\t'
  · rw [if_pos hsp]
    exact Nat.lt_succ_of_le (takeSeg_rem_length rest true)
  · rw [if_neg hsp, if_neg (by simp)]
    exact Nat.lt_succ_of_le (takeSeg_rem_length rest false)

/-- The `(width, has_spacing)` pair of a `TextRunSegment` — the only fields
the line-breaking loop reads. -/
structure SegRec where
  width : ℚ
  has_spacing : Bool
deriving DecidableEq, Repr

/-- Segments of one paragraph (`text.cc` lines 165-343): runs split by the
key oracle, then whitespace-segmented; the segment width — glyph advances
plus letter/word spacing, all produced by the external HarfBuzz shaping — is
the `widthOf` oracle applied to the segment's text. -/
def segsOfParagraph (key : Nat → RunKey) (widthOf : List Char → ℚ)
    (i : Nat) (para : List Char) : List SegRec :=
  (splitRuns key i para).flatMap
    (fun run => (wsSegments run).map
      (fun sh => { width := widthOf sh.1, has_spacing := sh.2 }))

/-- `max_line_width`: `some m` for a finite bound, `none` for
`max_width = ∞` (against which `line_width + word_width > max_line_width`
is false for every finite sum, exactly as with an `f32` infinity). -/
def exceedsMax (maxW : Option ℚ) (w : ℚ) : Bool :=
  match maxW with
  | Option.none => false
  | some m => decide (m < w)

/-- One word-taking loop (`text.cc` lines 360-372 and 380-392): accumulate
segment widths up to and including the first `has_spacing` segment. -/
def takeWord : List SegRec → ℚ × List SegRec
  | [] => (0, [])
  | s :: rest =>
    if s.has_spacing then (s.width, rest)
    else
      let r := takeWord rest
      (s.width + r.1, r.2)

theorem takeWord_rem_length :
    ∀ cs : List SegRec, (takeWord cs).2.length ≤ cs.length := by
  intro cs
  induction cs with
  | nil => exact Nat.le_refl _
  | cons s rest ih =>
    show (if s.has_spacing then (s.width, rest)
      else
        let r := takeWord rest
        (s.width + r.1, r.2)).2.length ≤ (s :: rest).length
    by_cases hs : s.has_spacing
    · rw [if_pos hs]
      exact Nat.le_succ _
    · rw [if_neg hs]
      exact Nat.le_succ_of_le ih

theorem takeWord_cons_lt (s : SegRec) (rest : List SegRec) :
    (takeWord (s :: rest)).2.length < (s :: rest).length := by
  show (if s.has_spacing then (s.width, rest)
    else
      let r := takeWord rest
      (s.width + r.1, r.2)).2.length < (s :: rest).length
  by_cases hs : s.has_spacing
  · rw [if_pos hs]
    exact Nat.lt_succ_self _
  · rw [if_neg hs]
    exact Nat.lt_succ_of_le (takeWord_rem_length rest)

/-- The greedy extension loop (`text.cc` lines 375-403): take the next word;
stop when `line_width + word_width > max_line_width`, otherwise extend the
line and continue.  Returns the final line width and the remainder. -/
def extendLine (maxW : Option ℚ) (lw : ℚ) : List SegRec → ℚ × List SegRec
  | [] => (lw, [])
  | s :: rest =>
    let r := takeWord (s :: rest)
    if exceedsMax maxW (lw + r.1) then (lw, s :: rest)
    else extendLine maxW (lw + r.1) r.2
termination_by cs => cs.length
decreasing_by
  exact takeWord_cons_lt s rest

theorem extendLine_rem_length (maxW : Option ℚ) (lw : ℚ)
    (cs : List SegRec) : (extendLine maxW lw cs).2.length ≤ cs.length := by
  have H : ∀ (n : Nat) (lw : ℚ) (cs : List SegRec), cs.length ≤ n →
      (extendLine maxW lw cs).2.length ≤ cs.length := by
    intro n
    induction n with
    | zero =>
      intro lw cs hcs
      cases cs with
      | nil => simp [extendLine]
      | cons s rest => simp at hcs
    | succ n ih =>
      intro lw cs hcs
      cases cs with
      | nil => simp [extendLine]
      | cons s rest =>
        simp only [extendLine]
        by_cases hex :
            exceedsMax maxW (lw + (takeWord (s :: rest)).1) = true
        · rw [if_pos hex]
        · rw [if_neg hex]
          have hlt := takeWord_cons_lt s rest
          simp only [List.length_cons] at hcs hlt ⊢
          have hrec := ih (lw + (takeWord (s :: rest)).1)
            (takeWord (s :: rest)).2 (by omega)
          omega
  exact H cs.length lw cs (Nat.le_refl _)

/-- The `(width, nrun_segments)` of an emitted `LineMetrics` record — the
fields the line-count claim observes. -/
structure LineRec where
  width : ℚ
  nsegs : Nat
deriving DecidableEq, Repr

/-- The per-paragraph line loop (`text.cc` lines 354-471): each iteration
takes the first word unconditionally, greedily extends while the next word
fits, then pushes one line covering the consumed segments. -/
def breakLines (maxW : Option ℚ) : List SegRec → List LineRec
  | [] => []
  | s :: rest =>
    let w := takeWord (s :: rest)
    let e := extendLine maxW w.1 w.2
    { width := e.1, nsegs := (s :: rest).length - e.2.length } ::
      breakLines maxW e.2
termination_by cs => cs.length
decreasing_by
  have h1 := extendLine_rem_length maxW (takeWord (s :: rest)).1
    (takeWord (s :: rest)).2
  have h2 := takeWord_cons_lt s rest
  simp only [List.length_cons] at h2 ⊢
  omega

/-- Lines of a paragraph list, threading the global codepoint position for
the key oracle (`style_text_offset`/`paragraph_begin` bookkeeping). -/
def linesOfParagraphs (key : Nat → RunKey) (widthOf : List Char → ℚ)
    (maxW : Option ℚ) : Nat → List (List Char) → List LineRec
  | _, [] => []
  | i, p :: rest =>
    breakLines maxW (segsOfParagraph key widthOf i p) ++
      linesOfParagraphs key widthOf maxW (i + p.length) rest

/-- `layout(block, …, max_line_width)`: clears `lines`; returns with no
lines when the font bundle or the text is empty; otherwise produces the
per-paragraph lines. -/
def textLayoutLines (numFonts : Nat) (key : Nat → RunKey)
    (widthOf : List Char → ℚ) (maxW : Option ℚ) (text : List Char) :
    List LineRec :=
  if numFonts = 0 ∨ text.isEmpty then []
  else linesOfParagraphs key widthOf maxW 0 (splitParagraphs text)

theorem splitParagraphsAux_nil (acc : List Char) :
    splitParagraphsAux [] acc =
      if acc.isEmpty then [] else [acc.reverse] := by
  simp [splitParagraphsAux]

theorem splitParagraphsAux_cons (ch : Char) (rest acc : List Char) :
    splitParagraphsAux (ch :: rest) acc =
      if ch = '\r' then
        if rest.head? = some '\n' then
          (acc.reverse ++ ['\r', '\n']) :: splitParagraphsAux rest.tail []
        else (acc.reverse ++ ['\r']) :: splitParagraphsAux rest []
      else if ch = '\n' then
        (acc.reverse ++ ['\n']) :: splitParagraphsAux rest []
      else splitParagraphsAux rest (ch :: acc) := by
  simp [splitParagraphsAux]

/-- Every paragraph produced by the splitter is nonempty (it contains at
least its separator, or — for the final chunk — at least one codepoint). -/
theorem splitParagraphsAux_mem_ne_nil (n : Nat) :
    ∀ cs : List Char, cs.length ≤ n → ∀ acc : List Char,
      ∀ p ∈ splitParagraphsAux cs acc, p ≠ [] := by
  induction n with
  | zero =>
    intro cs hcs acc p hp
    cases cs with
    | nil =>
      rw [splitParagraphsAux_nil] at hp
      by_cases ha : acc.isEmpty
      · rw [if_pos ha] at hp
        cases hp
      · rw [if_neg ha] at hp
        simp at hp
        rw [hp]
        simp only [ne_eq, List.reverse_eq_nil_iff]
        intro hnil
        rw [hnil] at ha
        exact ha rfl
    | cons ch rest => simp at hcs
  | succ n ih =>
    intro cs hcs acc p hp
    cases cs with
    | nil =>
      rw [splitParagraphsAux_nil] at hp
      by_cases ha : acc.isEmpty
      · rw [if_pos ha] at hp
        cases hp
      · rw [if_neg ha] at hp
        simp at hp
        rw [hp]
        simp only [ne_eq, List.reverse_eq_nil_iff]
        intro hnil
        rw [hnil] at ha
        exact ha rfl
    | cons ch rest =>
      have hrest : rest.length ≤ n := by
        simp only [List.length_cons] at hcs
        omega
      rw [splitParagraphsAux_cons] at hp
      by_cases hr : ch = '\r'
      · rw [if_pos hr] at hp
        by_cases hn2 : rest.head? = some '\n'
        · rw [if_pos hn2] at hp
          rcases List.mem_cons.mp hp with hp | hp
          · rw [hp]
            simp
          · exact ih rest.tail
              (by rw [List.length_tail]; omega) [] p hp
        · rw [if_neg hn2] at hp
          rcases List.mem_cons.mp hp with hp | hp
          · rw [hp]
            simp
          · exact ih rest hrest [] p hp
      · rw [if_neg hr] at hp
        by_cases hn1 : ch = '\n'
        · rw [if_pos hn1] at hp
          rcases List.mem_cons.mp hp with hp | hp
          · rw [hp]
            simp
          · exact ih rest hrest [] p hp
        · rw [if_neg hn1] at hp
          exact ih rest hrest (ch :: acc) p hp

/-- The splitter yields at least one paragraph when there is input text (or
leftover accumulated text). -/
theorem splitParagraphsAux_ne_nil (n : Nat) :
    ∀ cs : List Char, cs.length ≤ n → ∀ acc : List Char,
      (cs ≠ [] ∨ acc ≠ []) → splitParagraphsAux cs acc ≠ [] := by
  induction n with
  | zero =>
    intro cs hcs acc hne
    cases cs with
    | nil =>
      rw [splitParagraphsAux_nil]
      have hacc : acc ≠ [] := by
        rcases hne with h | h
        · exact absurd rfl h
        · exact h
      rw [if_neg (by simp [hacc])]
      simp
    | cons ch rest => simp at hcs
  | succ n ih =>
    intro cs hcs acc hne
    cases cs with
    | nil =>
      rw [splitParagraphsAux_nil]
      have hacc : acc ≠ [] := by
        rcases hne with h | h
        · exact absurd rfl h
        · exact h
      rw [if_neg (by simp [hacc])]
      simp
    | cons ch rest =>
      have hrest : rest.length ≤ n := by
        simp only [List.length_cons] at hcs
        omega
      rw [splitParagraphsAux_cons]
      by_cases hr : ch = '\r'
      · rw [if_pos hr]
        by_cases hn2 : rest.head? = some '\n'
        · rw [if_pos hn2]
          simp
        · rw [if_neg hn2]
          simp
      · rw [if_neg hr]
        by_cases hn1 : ch = '\n'
        · rw [if_pos hn1]
          simp
        · rw [if_neg hn1]
          exact ih rest hrest (ch :: acc) (Or.inr (by simp))

theorem splitRuns_cons (key : Nat → RunKey) (i : Nat) (ch : Char)
    (rest : List Char) :
    splitRuns key i (ch :: rest) =
      (ch :: (takeRun (key i) key (i + 1) rest).1) ::
        splitRuns key (takeRun (key i) key (i + 1) rest).2.1
          (takeRun (key i) key (i + 1) rest).2.2 := by
  simp [splitRuns]

theorem wsSegments_cons (ch : Char) (rest : List Char) :
    wsSegments (ch :: rest) =
      ((takeSeg (ch :: rest) false).1, (takeSeg (ch :: rest) false).2.1) ::
        wsSegments (takeSeg (ch :: rest) false).2.2 := by
  simp [wsSegments]

/-- Every nonempty paragraph yields at least one run segment: the run loop
emits at least one run (containing the first codepoint) and the segmentation
loop emits at least one segment per nonempty run. -/
theorem segsOfParagraph_ne_nil (key : Nat → RunKey)
    (widthOf : List Char → ℚ) (i : Nat) (para : List Char)
    (h : para ≠ []) : segsOfParagraph key widthOf i para ≠ [] := by
  cases para with
  | nil => exact absurd rfl h
  | cons ch rest =>
    unfold segsOfParagraph
    rw [splitRuns_cons, List.flatMap_cons, wsSegments_cons]
    simp

/-- Against `max_width = ∞` the greedy extension loop consumes every
remaining segment: the break test `line_width + word_width > ∞` never
fires. -/
theorem extendLine_none_consumes (lw : ℚ) (cs : List SegRec) :
    (extendLine Option.none lw cs).2 = [] := by
  have H : ∀ (n : Nat) (lw : ℚ) (cs : List SegRec), cs.length ≤ n →
      (extendLine Option.none lw cs).2 = [] := by
    intro n
    induction n with
    | zero =>
      intro lw cs hcs
      cases cs with
      | nil => simp [extendLine]
      | cons s rest => simp at hcs
    | succ n ih =>
      intro lw cs hcs
      cases cs with
      | nil => simp [extendLine]
      | cons s rest =>
        simp only [extendLine]
        rw [if_neg (by simp [exceedsMax])]
        have hlt := takeWord_cons_lt s rest
        simp only [List.length_cons] at hcs hlt
        exact ih (lw + (takeWord (s :: rest)).1) (takeWord (s :: rest)).2
          (by omega)
  exact H cs.length lw cs (Nat.le_refl _)

theorem breakLines_cons (maxW : Option ℚ) (s : SegRec)
    (rest : List SegRec) :
    breakLines maxW (s :: rest) =
      { width := (extendLine maxW (takeWord (s :: rest)).1
          (takeWord (s :: rest)).2).1,
        nsegs := (s :: rest).length -
          (extendLine maxW (takeWord (s :: rest)).1
            (takeWord (s :: rest)).2).2.length } ::
        breakLines maxW (extendLine maxW (takeWord (s :: rest)).1
          (takeWord (s :: rest)).2).2 := by
  simp [breakLines]

/-- With `max_width = ∞` a nonempty segment list becomes exactly one line. -/
theorem breakLines_none_singleton (segs : List SegRec) (h : segs ≠ []) :
    (breakLines Option.none segs).length = 1 := by
  cases segs with
  | nil => exact absurd rfl h
  | cons s rest =>
    rw [breakLines_cons, extendLine_none_consumes]
    rw [show breakLines Option.none [] = [] from by simp [breakLines]]
    rfl

theorem linesOfParagraphs_none_length (key : Nat → RunKey)
    (widthOf : List Char → ℚ) :
    ∀ (ps : List (List Char)) (i : Nat), (∀ p ∈ ps, p ≠ []) →
      (linesOfParagraphs key widthOf Option.none i ps).length =
        ps.length := by
  intro ps
  induction ps with
  | nil => intro i _; rfl
  | cons p rest ih =>
    intro i h
    show (breakLines Option.none (segsOfParagraph key widthOf i p) ++
        linesOfParagraphs key widthOf Option.none (i + p.length)
          rest).length = (p :: rest).length
    rw [List.length_append,
      breakLines_none_singleton _
        (segsOfParagraph_ne_nil key widthOf i p
          (h p (List.mem_cons_self _ _))),
      ih (i + p.length) (fun q hq => h q (List.mem_cons_of_mem _ hq))]
    simp only [List.length_cons]
    omega

/-- C6 counterexample: the claim says a block with no paragraph break,
*including an empty block*, yields exactly one line.  `layout` returns with
cleared (empty) `lines` when `block.text.empty()` — an empty block yields
zero lines, not one, for any font bundle and any oracle. -/
theorem layout_empty_block_has_no_lines :
    textLayoutLines 1 (fun _ => ((0, 0, 0) : RunKey)) (fun _ => (1 : ℚ))
        Option.none [] = [] ∧
      ¬((textLayoutLines 1 (fun _ => ((0, 0, 0) : RunKey))
          (fun _ => (1 : ℚ)) Option.none []).length = 1) := by
  refine ⟨rfl, ?_⟩
  intro h
  rw [show textLayoutLines 1 (fun _ => ((0, 0, 0) : RunKey))
      (fun _ => (1 : ℚ)) Option.none [] = [] from rfl] at h
  simp at h

/-- C6 amended: for a `TextBlock` whose text and font bundle are nonempty,
laid out with `max_width = ∞`, the layout has exactly one line per
paragraph — `lines.len = (number of paragraphs) ≥ 1`, where paragraphs are
delimited by `\r`, `\n` or `\r\n` with the separator belonging to the
preceding paragraph (so `1 + count(paragraph breaks)` exactly when no break
ends the text); an empty block (or empty font bundle) yields zero lines.
This holds for every level/script/style oracle and every shaping-width
oracle. -/
theorem layout_unbounded_lines_eq_paragraphs (numFonts : Nat)
    (key : Nat → RunKey) (widthOf : List Char → ℚ) (text : List Char)
    (hfonts : numFonts ≠ 0) (htext : text ≠ []) :
    (textLayoutLines numFonts key widthOf Option.none text).length =
      (splitParagraphs text).length ∧
      1 ≤ (splitParagraphs text).length := by
  have hguard : ¬(numFonts = 0 ∨ text.isEmpty = true) := by
    simp [hfonts, htext]
  have hlines : textLayoutLines numFonts key widthOf Option.none text =
      linesOfParagraphs key widthOf Option.none 0 (splitParagraphs text) := by
    unfold textLayoutLines
    rw [if_neg hguard]
  constructor
  · rw [hlines]
    exact linesOfParagraphs_none_length key widthOf (splitParagraphs text) 0
      (fun p hp =>
        splitParagraphsAux_mem_ne_nil text.length text (Nat.le_refl _) [] p
          hp)
  · have hne : splitParagraphs text ≠ [] :=
      splitParagraphsAux_ne_nil text.length text (Nat.le_refl _) []
        (Or.inl htext)
    exact List.length_pos.mpr hne

theorem layout_unbounded_lines_witness :
    ((1 : Nat) ≠ 0 ∧ (['a', '\n', 'b'] : List Char) ≠ [] ∧
        (splitParagraphs ['a', '\n', 'b']).length = 2) ∧
      (textLayoutLines 1 (fun _ => ((0, 0, 0) : RunKey)) (fun _ => (1 : ℚ))
          Option.none ['a', '\n', 'b']).length =
        (splitParagraphs ['a', '\n', 'b']).length := by
  have hsp : splitParagraphs ['a', '\n', 'b'] = [['a', '\n'], ['b']] := by
    simp [splitParagraphs, splitParagraphsAux_cons, splitParagraphsAux_nil]
  refine ⟨⟨by decide, by decide, by rw [hsp]; rfl⟩, ?_⟩
  exact (layout_unbounded_lines_eq_paragraphs 1 (fun _ => ((0, 0, 0) : RunKey))
      (fun _ => (1 : ℚ)) ['a', '\n', 'b'] (by decide) (by decide)).1

end Ashura
